import Mathlib

/-!
Shallow embedding of the fia-docs-api ingestion pipeline, translated from
`src/main.rs`, `src/middleware/runner.rs` and `src/model/series.rs`.

External effects (HTTP fetches and uploads, the libsql database, the
filesystem scratch directory, the imagemagick renderer, the clock) are
supplied by a `World` of oracles; the orchestrator itself is a pure
state-passing function over the `World`.  Database calls are numbered by a
per-state counter and each call may fail according to `World.dbFail`;
network calls are keyed by their argument (the URL).  Rust `Result`
propagation with `?` becomes explicit matching on `RunRes`; a Rust panic
(`Option::unwrap` on `None`) becomes the distinguished `RunRes.panicked`
outcome.  Wall-clock time for the cooperative stop flag is an abstract
`Nat` instant: the flag is a function of the instant, it is sampled exactly
where `runner_internal` loads the `AtomicBool`, and processing a document
advances time by a `World`-chosen positive duration.
-/

namespace Fia

/-- Racing series as iterated by `runner` in `src/middleware/runner.rs`
(`Series::F1.i8()..=Series::F3.i8()`); only F1, F2 and F3 are reachable. -/
inductive Series where
  | f1
  | f2
  | f3
deriving DecidableEq

/-- Event status: the ingestion pipeline only ever writes `NotAllowed`
(`create_new_event` in `src/middleware/runner.rs`). -/
inductive EventStatus where
  | notAllowed
deriving DecidableEq

/-- Document status from `f1_bot_types` as used by `src/middleware/runner.rs`:
rows are inserted `Initial` and `mark_doc_done` updates them to `ReadyToPost`. -/
inductive DocumentStatus where
  | initial
  | readyToPost
deriving DecidableEq

/-- Persistent event row (`events` table; `Event` of `f1_bot_types` as used by
the runner).  `created_at` is not consulted by the ingestion pipeline and is
omitted. -/
structure Event where
  id : Nat
  title : String
  year : Int
  series : Series
  status : EventStatus
deriving DecidableEq

/-- Persistent document row (`documents` table).  The SQL filter
`strftime('%Y', created_at) = ?` only ever looks at the year of `created_at`,
so the row carries that year directly as `createdYear`. -/
structure Document where
  id : Nat
  eventId : Nat
  title : String
  href : String
  mirror : String
  status : DocumentStatus
  createdYear : Int
deriving DecidableEq

/-- Persistent image row (`images` table, `insert_image`). -/
structure ImageRow where
  documentId : Nat
  pageNumber : Nat
  url : String
deriving DecidableEq

/-- The database visible to the runner: the three tables written by the
ingestion pipeline, plus the auto-increment rowid counters backing
`last_insert_rowid()`. -/
structure Store where
  events : List Event
  documents : List Document
  images : List ImageRow
  nextEventId : Nat
  nextDocId : Nat
deriving DecidableEq

/-- The `LocalCache` of `src/middleware/runner.rs`: in-memory snapshot with the
`last_populated` timestamp (seconds; `Default` sets it to the UNIX epoch,
modelled as 0). -/
structure LocalCache where
  documents : List Document
  events : List Event
  lastPopulated : Int
deriving DecidableEq

/-- Model of `LocalCache::default()`: empty lists, `last_populated` at the epoch. -/
def LocalCache.empty : LocalCache := ⟨[], [], 0⟩

/-- Modelled from the spec: the candidate records produced by the feed parser
(`src/middleware/parser.rs`, not among the sources).  Per the spec's data
model a document candidate has optional `title` and `url` fields, exactly the
fields `runner_internal` takes (and unwraps) from `doc`. -/
structure ParserDocument where
  title : Option String
  url : Option String
deriving DecidableEq

/-- Modelled from the spec: an event candidate with optional `title` and
`season` fields and its list of document candidates, exactly the fields
`runner_internal` reads from `ev`. -/
structure ParserEvent where
  title : Option String
  season : Option Int
  documents : List ParserDocument
deriving DecidableEq

/-- Modelled from the spec: the transient `Season` tree handed from the feed
parser to the orchestrator (`get_season`). -/
structure Season where
  year : Int
  events : List ParserEvent
deriving DecidableEq

/-- Failure taxonomy of the runner: every `?`-propagated error, tagged by the
operation that produced it. -/
inductive Err where
  | feed
  | download
  | mirrorNet
  | mirrorStatus (code : Nat)
  | db
  | magick
  | pageReadErr
  | pageNet
  | clearTmp
deriving DecidableEq

/-- Outcome of a runner fragment: Rust `Ok`, a `?`-propagated `Err`, or a
panic from `Option::unwrap` on `None`. -/
inductive RunRes (α : Type) where
  | ok (a : α)
  | err (e : Err)
  | panicked
deriving DecidableEq

/-- Observable actions of one cycle, recorded in order.  Entries carrying a
`Nat` instant record the wall-clock time at which the stop flag was sampled
for that boundary. -/
inductive TraceEntry where
  | eventsQuery
  | docsQuery
  | eventStarted (t : Nat) (title : Option String)
  | stoppedAtEvent (t : Nat)
  | stoppedAtDoc (t : Nat)
  | docSkipped (url : String)
  | docStarted (t : Nat) (url : String)
  | downloadReq (url : String)
  | mirrorPut (url : String)
  | imgPut (url : String)
  | docCompleted (url : String) (success : Bool)
deriving DecidableEq

/-- Whole runner state threaded through a cycle: the database, the local
cache, the database-call counter, the scratch-clear counter, the current
instant, the number of completed document units, the trace of observable
actions, and the instants at which the stop flag was sampled. -/
structure St where
  store : Store
  cache : LocalCache
  dbOps : Nat
  tmpOps : Nat
  time : Nat
  units : Nat
  trace : List TraceEntry
  samples : List Nat
deriving DecidableEq

/-- Oracles standing for the world outside the runner.  A `none`/`true`
answer is the corresponding operation failing; HTTP responses carry their
status code. -/
structure World where
  /-- Year of the cycle start (`Utc::now().year()`). -/
  year : Int
  /-- Clock reading (seconds since the epoch) used by `populate_cache`. -/
  now : Int
  /-- Whether the n-th database call of the cycle fails. -/
  dbFail : Nat → Bool
  /-- Feed fetch + parse per series (`get_season`); `none` is a fetch error. -/
  feed : Series → Option Season
  /-- `download_file` by source url: the downloaded bytes, or a failure. -/
  download : String → Option (List Nat)
  /-- Mirror PUT by url: response status code, or `none` for a network error. -/
  mirrorResp : String → Option Nat
  /-- `run_magick` by document index and source url: number of rendered pages. -/
  magick : Nat → String → Option Nat
  /-- Reading the rendered page file (docId, page): bytes or a failure. -/
  pageRead : Nat → Nat → Option (List Nat)
  /-- Image PUT by url: response status code, or `none` for a network error.
  `upload_image` never inspects the returned status. -/
  imagePut : String → Option Nat
  /-- Whether the n-th `clear_tmp_dir` call of the cycle fails. -/
  clearTmpFail : Nat → Bool
  /-- Extra wall-clock duration of the n-th completed document unit. -/
  dur : Nat → Nat

/-- Append one observable action to the trace. -/
def pushTrace (e : TraceEntry) (st : St) : St :=
  { st with trace := st.trace ++ [e] }

/-- Record that the stop flag was sampled at the current instant. -/
def sampleFlag (st : St) : St :=
  { st with samples := st.samples ++ [st.time] }

/-- Characters the `urlencoding` crate leaves unencoded: ASCII alphanumerics
and `-`, `_`, `.`, `~`. -/
def isUrlSafe (c : Char) : Bool :=
  c.isAlphanum || c == '-' || c == '_' || c == '.' || c == '~'

/-- UTF-8 bytes of one character (the `urlencoding` crate percent-encodes the
UTF-8 byte sequence of every unsafe character). -/
def utf8Bytes (c : Char) : List Nat :=
  let n := c.toNat
  if n < 0x80 then [n]
  else if n < 0x800 then [0xC0 + n / 0x40, 0x80 + n % 0x40]
  else if n < 0x10000 then
    [0xE0 + n / 0x1000, 0x80 + (n / 0x40) % 0x40, 0x80 + n % 0x40]
  else
    [0xF0 + n / 0x40000, 0x80 + (n / 0x1000) % 0x40, 0x80 + (n / 0x40) % 0x40,
      0x80 + n % 0x40]

/-- Uppercase hexadecimal digit, as emitted by `urlencoding::encode`. -/
def hexDigit (n : Nat) : Char :=
  if n < 10 then Char.ofNat (48 + n) else Char.ofNat (55 + n)

/-- One percent-encoded byte, e.g. `%20`. -/
def pctByte (b : Nat) : String :=
  String.mk ['%', hexDigit (b / 16), hexDigit (b % 16)]

/-- Model of `urlencoding::encode`: safe characters kept, all others percent-encoded
byte by byte. -/
def urlencode (s : String) : String :=
  s.data.foldl
    (fun acc c =>
      acc ++ (if isUrlSafe c then String.mk [c] else String.join ((utf8Bytes c).map pctByte)))
    ""

/-- Mirror upload URL exactly as built by `upload_mirror`
(`src/middleware/runner.rs`): only the document title passes through
`urlencoding::encode`; the event title is interpolated raw. -/
def mirrorUrl (year : Int) (eventTitle docTitle : String) : String :=
  "https://fia.ort.dev/mirror/" ++ toString year ++ "/" ++ eventTitle ++ "/"
    ++ urlencode docTitle ++ ".pdf"

/-- Page image URL exactly as built in the page loop of `runner_internal`:
here the event title is URL-encoded. -/
def imgUrl (year : Int) (eventTitle : String) (docId page : Nat) : String :=
  "https://fia.ort.dev/img/" ++ toString year ++ "/" ++ urlencode eventTitle
    ++ "/" ++ toString docId ++ "-" ++ toString page ++ ".jpg"

/-- Model of `Duration::checked_sub`: `none` when the subtrahend exceeds the operand. -/
def checkedSub (a b : Nat) : Option Nat :=
  if b ≤ a then some (a - b) else none

/-- Delay (milliseconds) before the next cycle, from the pacing code of
`src/main.rs`:
`Duration::from_secs(5).checked_sub(runner_time).unwrap_or(Duration::from_secs(1))`. -/
def delayMs (elapsedMs : Nat) : Nat :=
  (checkedSub 5000 elapsedMs).getD 1000

/-- Delay formula asserted by the specification: `max(targetInterval − elapsed,
minimumFloor)` with the source's 5 s target and 1 s floor. -/
def claimedDelayMs (elapsedMs : Nat) : Nat :=
  max (5000 - elapsedMs) 1000

/-- Model of `populate_cache` of `src/middleware/runner.rs`.  It clears both cache
lists first, reloads the year's events, and reloads the year's documents only
when more than a day passed since `last_populated` (only then is
`last_populated` advanced).  Each query can fail; a failure propagates
immediately.  The row iteration of one query is modelled atomically: a
failing query delivers no rows. -/
def populateCache (w : World) (year : Int) (st : St) : RunRes Unit × St :=
  let st1 := { st with cache := { st.cache with events := [], documents := [] } }
  let st2 := pushTrace .eventsQuery st1
  if w.dbFail st2.dbOps then (.err .db, { st2 with dbOps := st2.dbOps + 1 })
  else
    let st3 := { st2 with
      dbOps := st2.dbOps + 1,
      cache := { st2.cache with
        events := st2.store.events.filter (fun e => e.year == year) } }
    if (w.now - st3.cache.lastPopulated).tdiv 86400 < 1 then (.ok (), st3)
    else
      let st4 := pushTrace .docsQuery st3
      if w.dbFail st4.dbOps then (.err .db, { st4 with dbOps := st4.dbOps + 1 })
      else
        (.ok (), { st4 with
          dbOps := st4.dbOps + 1,
          cache := { st4.cache with
            documents := st4.store.documents.filter (fun d => d.createdYear == year),
            lastPopulated := w.now } })

/-- The cache lookup predicate of `runner_internal` (line for line): the
candidate's title must match the row's title, the candidate's `season` must
equal the target year (the row's own year is not consulted), and the row's
series must match. -/
def candMatches (year : Int) (series : Series) (ev : ParserEvent) (f : Event) : Bool :=
  (match ev.title with
    | some t => t == f.title
    | none => false)
    && (match ev.season with
      | some s => s == year
      | none => false)
    && f.series == series

/-- Model of `cache.events.iter().find(...)` of `runner_internal`. -/
def findCachedEvent (cache : LocalCache) (year : Int) (series : Series)
    (ev : ParserEvent) : Option Event :=
  cache.events.find? (candMatches year series ev)

/-- Model of `create_new_event`: unwraps the candidate title (panicking on `None`),
inserts the event row with status `NotAllowed`, and returns the row built
from `last_insert_rowid()`.  The new row is not added to the cache. -/
def createNewEvent (w : World) (series : Series) (year : Int) (ev : ParserEvent)
    (st : St) : RunRes Event × St :=
  match ev.title with
  | none => (.panicked, st)
  | some t =>
    if w.dbFail st.dbOps then (.err .db, { st with dbOps := st.dbOps + 1 })
    else
      let e : Event := ⟨st.store.nextEventId, t, year, series, .notAllowed⟩
      (.ok e,
        { st with
          dbOps := st.dbOps + 1,
          store := { st.store with
            events := st.store.events ++ [e],
            nextEventId := st.store.nextEventId + 1 } })

/-- Model of `UPDATE documents SET status = ? WHERE id = ?` (`mark_doc_done`). -/
def setDocStatus (s : Store) (docId : Nat) (status : DocumentStatus) : Store :=
  { s with
    documents := s.documents.map
      (fun d => if d.id == docId then { d with status := status } else d) }

/-- The per-page loop of `runner_internal`: for each page in order, read the
rendered file, PUT it (the response status is not inspected: only a network
error fails), then insert the image row.  Any failure propagates and the
remaining pages are not attempted. -/
def pagesLoop (w : World) (year : Int) (evTitle : String) (docId : Nat)
    (pages : List Nat) (st : St) : RunRes Unit × St :=
  match pages with
  | [] => (.ok (), st)
  | p :: rest =>
    let u := imgUrl year evTitle docId p
    match w.pageRead docId p with
    | none => (.err .pageReadErr, st)
    | some _ =>
      let st1 := pushTrace (.imgPut u) st
      match w.imagePut u with
      | none => (.err .pageNet, st1)
      | some _ =>
        if w.dbFail st1.dbOps then (.err .db, { st1 with dbOps := st1.dbOps + 1 })
        else
          pagesLoop w year evTitle docId rest
            { st1 with
              dbOps := st1.dbOps + 1,
              store := { st1.store with
                images := st1.store.images ++ [⟨docId, p, u⟩] } }

/-- Tail of the per-document pipeline, once the document row (id `docId`,
source url `url`) is inserted: `run_magick`, the page loop, and
`mark_doc_done` on full success.  Any failure propagates and leaves the
row's status `Initial`. -/
def docPipelineTail (w : World) (year : Int) (evTitle : String) (i : Nat)
    (url : String) (docId : Nat) (st : St) : RunRes Unit × St :=
  match w.magick i url with
  | none => (.err .magick, pushTrace (.docCompleted url false) st)
  | some n =>
    match pagesLoop w year evTitle docId (List.range n) st with
    | (.ok _, st4) =>
      if w.dbFail st4.dbOps then
        (.err .db, pushTrace (.docCompleted url false) { st4 with dbOps := st4.dbOps + 1 })
      else
        (.ok (),
          pushTrace (.docCompleted url true)
            { st4 with
              dbOps := st4.dbOps + 1,
              store := setDocStatus st4.store docId .readyToPost })
    | (.err e, st4) => (.err e, pushTrace (.docCompleted url false) st4)
    | (.panicked, st4) => (.panicked, st4)

/-- The per-document pipeline: the body of the document loop of
`runner_internal`.  Unwraps title and url (panicking on a missing field),
skips the document when its url is already in the cache, and otherwise runs
download → mirror upload → document insert (+ cache push) → render → page
loop → status update, each failure propagating. -/
def processDoc (w : World) (year : Int) (realEvent : Event) (i : Nat)
    (d : ParserDocument) (st : St) : RunRes Unit × St :=
  match d.title, d.url with
  | some title, some url =>
    if st.cache.documents.any (fun f => f.href == url) then
      (.ok (), pushTrace (.docSkipped url) st)
    else
      let st1 := pushTrace (.downloadReq url) (pushTrace (.docStarted st.time url) st)
      match w.download url with
      | none => (.err .download, pushTrace (.docCompleted url false) st1)
      | some _ =>
        let murl := mirrorUrl year realEvent.title title
        let st2 := pushTrace (.mirrorPut murl) st1
        match w.mirrorResp murl with
        | none => (.err .mirrorNet, pushTrace (.docCompleted url false) st2)
        | some code =>
          if 400 ≤ code then
            (.err (.mirrorStatus code), pushTrace (.docCompleted url false) st2)
          else if w.dbFail st2.dbOps then
            (.err .db, pushTrace (.docCompleted url false) { st2 with dbOps := st2.dbOps + 1 })
          else
            let docId := st2.store.nextDocId
            let row : Document := ⟨docId, realEvent.id, title, url, murl, .initial, w.year⟩
            let st3 := { st2 with
              dbOps := st2.dbOps + 1,
              store := { st2.store with
                documents := st2.store.documents ++ [row],
                nextDocId := docId + 1 },
              cache := { st2.cache with
                documents := st2.cache.documents ++ [row] } }
            docPipelineTail w year realEvent.title i url docId st3
  | _, _ => (.panicked, st)

/-- The document loop of `runner_internal`: before each document the stop
flag is sampled; if set, the loop breaks without starting the document.
After a completed document the clock advances by that unit's duration. -/
def docsLoop (w : World) (flag : Nat → Bool) (year : Int) (realEvent : Event)
    (ds : List ParserDocument) (i : Nat) (st : St) : RunRes Unit × St :=
  match ds with
  | [] => (.ok (), st)
  | d :: rest =>
    let st1 := sampleFlag st
    if flag st1.time then (.ok (), pushTrace (.stoppedAtDoc st1.time) st1)
    else
      match processDoc w year realEvent i d st1 with
      | (.ok _, st2) =>
        docsLoop w flag year realEvent rest (i + 1)
          { st2 with time := st2.time + 1 + w.dur st2.units, units := st2.units + 1 }
      | (r, st2) => (r, st2)

/-- Tail of one event iteration after the event row is resolved: run the
document loop, then `clear_tmp_dir()` (whose failure is fatal to the cycle).
`clear_tmp_dir` runs even when the document loop was broken by the stop
flag, but not when an error propagated out of it. -/
def eventBody (w : World) (flag : Nat → Bool) (year : Int) (realEvent : Event)
    (docs : List ParserDocument) (st : St) : RunRes Unit × St :=
  match docsLoop w flag year realEvent docs 0 st with
  | (.ok _, st1) =>
    if w.clearTmpFail st1.tmpOps then (.err .clearTmp, { st1 with tmpOps := st1.tmpOps + 1 })
    else (.ok (), { st1 with tmpOps := st1.tmpOps + 1 })
  | (r, st1) => (r, st1)

/-- One event iteration of `runner_internal`: resolve the event through the
cache (creating and persisting it on a miss), then run the event body. -/
def processEvent (w : World) (flag : Nat → Bool) (year : Int) (series : Series)
    (ev : ParserEvent) (st : St) : RunRes Unit × St :=
  match findCachedEvent st.cache year series ev with
  | some e => eventBody w flag year e ev.documents st
  | none =>
    match createNewEvent w series year ev st with
    | (.ok e, st1) => eventBody w flag year e ev.documents st1
    | (.err er, st1) => (.err er, st1)
    | (.panicked, st1) => (.panicked, st1)

/-- The event loop of `runner_internal`: before each event the stop flag is
sampled; if set, the loop breaks without starting the event. -/
def eventsLoop (w : World) (flag : Nat → Bool) (year : Int) (series : Series)
    (evs : List ParserEvent) (st : St) : RunRes Unit × St :=
  match evs with
  | [] => (.ok (), st)
  | ev :: rest =>
    let st1 := sampleFlag st
    if flag st1.time then (.ok (), pushTrace (.stoppedAtEvent st1.time) st1)
    else
      let st2 := pushTrace (.eventStarted st1.time ev.title) st1
      match processEvent w flag year series ev st2 with
      | (.ok _, st3) => eventsLoop w flag year series rest { st3 with time := st3.time + 1 }
      | (r, st3) => (r, st3)

/-- Model of `runner_internal`: fetch and parse the series feed (`get_season`), then
run the event loop over the parsed season. -/
def runnerInternal (w : World) (flag : Nat → Bool) (year : Int) (series : Series)
    (st : St) : RunRes Unit × St :=
  match w.feed series with
  | none => (.err .feed, st)
  | some season => eventsLoop w flag year series season.events st

/-- The series order fixed by `runner`: F1, F2, F3. -/
def seriesOrder : List Series := [.f1, .f2, .f3]

/-- The series loop of `runner`: each series in order, any error propagating
out of the cycle (`runner_internal(...).await?`). -/
def seriesLoop (w : World) (flag : Nat → Bool) (year : Int) (ss : List Series)
    (st : St) : RunRes Unit × St :=
  match ss with
  | [] => (.ok (), st)
  | s :: rest =>
    match runnerInternal w flag year s st with
    | (.ok _, st1) => seriesLoop w flag year rest st1
    | (r, st1) => (r, st1)

/-- Model of `runner`: one full cycle.  A fresh `LocalCache::default()` is created,
`populate_cache` fills it (its failure aborting the cycle), then every
series is processed. -/
def runner (w : World) (flag : Nat → Bool) (st : St) : RunRes Unit × St :=
  let st1 := { st with cache := LocalCache.empty }
  match populateCache w w.year st1 with
  | (.ok _, st2) => seriesLoop w flag w.year seriesOrder st2
  | (r, st2) => (r, st2)

/-- No two event rows share the same (title, year, series) key. -/
def eventsUnique : List Event → Bool
  | [] => true
  | e :: rest =>
    rest.all (fun f => !(f.title == e.title && f.year == e.year && f.series == e.series))
      && eventsUnique rest

/-- Propositional form of the event-key uniqueness invariant: no two rows of
the list share (title, year, series). -/
def EventsUniqueP (l : List Event) : Prop :=
  l.Pairwise (fun a b => ¬ (a.title = b.title ∧ a.year = b.year ∧ a.series = b.series))

/-- A never-set stop flag. -/
def flagOff : Nat → Bool := fun _ => false

/-- Empty initial state: empty store (rowids starting at 1), empty default
cache, all counters zero. -/
def st0 : St := ⟨⟨[], [], [], 1, 1⟩, LocalCache.empty, 0, 0, 0, 0, [], []⟩

/-- A benign world: every operation succeeds, each document renders to one
page, all responses are 200. -/
def baseWorld : World where
  year := 2025
  now := 100000000
  dbFail := fun _ => false
  feed := fun _ => some ⟨2025, []⟩
  download := fun _ => some [1]
  mirrorResp := fun _ => some 200
  magick := fun _ _ => some 1
  pageRead := fun _ _ => some [2]
  imagePut := fun _ => some 200
  clearTmpFail := fun _ => false
  dur := fun _ => 0

/-- Trace discipline of the cooperative stop flag over one run fragment with
base trace `base` and final trace `res`: the fragment only appends entries;
any appended `eventStarted` or `docStarted` entry records an instant at
which the flag was (sampled and) unset, and every appended `docStarted`
entry is matched in the final trace by a `docCompleted` entry for the same
url — a started unit always runs to completion. -/
def StopOk (flag : Nat → Bool) (base res : List TraceEntry) : Prop :=
  ∃ dt, res = base ++ dt ∧ ∀ x ∈ dt,
    (∀ t2 ti, x = TraceEntry.eventStarted t2 ti → flag t2 = false) ∧
    (∀ t2 u2, x = TraceEntry.docStarted t2 u2 → flag t2 = false ∧
      ∃ b, TraceEntry.docCompleted u2 b ∈ res)

/-- F1 season with one two-document event and a second event; a further
event sits in the F2 feed.  The first document's download fails. -/
def seasonC1 : Season :=
  ⟨2025,
    [⟨some "E1", some 2025, [⟨some "D1", some "u1"⟩, ⟨some "D2", some "u2"⟩]⟩,
      ⟨some "E2", some 2025, []⟩]⟩

/-- World for the C1 counterexample: downloading url `u1` fails, everything
else succeeds. -/
def wC1x : World :=
  { baseWorld with
    feed := fun s =>
      match s with
      | .f1 => some seasonC1
      | .f2 => some ⟨2025, [⟨some "E3", some 2025, []⟩]⟩
      | .f3 => some ⟨2025, []⟩,
    download := fun u => if u == "u1" then none else some [1] }

/-- World for the C1 witness: every download fails. -/
def wC1w : World := { baseWorld with download := fun _ => none }

/-- Resolved event used by the C1 witness. -/
def reC1w : Event := ⟨1, "E", 2025, .f1, .notAllowed⟩

/-- Document candidate used by the C1 witness. -/
def dC1w : ParserDocument := ⟨some "D", some "u"⟩

/-- Pre-call state for C2: a stale cache holding one event and one document. -/
def stC2x : St :=
  { st0 with
    cache :=
      ⟨[⟨9, 7, "T", "h", "m", .initial, 2025⟩], [⟨3, "Old", 2025, .f1, .notAllowed⟩], 50⟩ }

/-- World for C2: every database call fails. -/
def wC2x : World := { baseWorld with dbFail := fun _ => true }

/-- World for C3 (event candidate without a title). -/
def wC3a : World :=
  { baseWorld with feed := fun s => match s with
      | .f1 => some ⟨2025, [⟨none, some 2025, []⟩]⟩
      | _ => some ⟨2025, []⟩ }

/-- World for C3 (document candidate without a title). -/
def wC3b : World :=
  { baseWorld with feed := fun s => match s with
      | .f1 => some ⟨2025, [⟨some "E", some 2025, [⟨none, some "u"⟩]⟩]⟩
      | _ => some ⟨2025, []⟩ }

/-- World for C3 (document candidate without a url). -/
def wC3c : World :=
  { baseWorld with feed := fun s => match s with
      | .f1 => some ⟨2025, [⟨some "E", some 2025, [⟨some "D", none⟩]⟩]⟩
      | _ => some ⟨2025, []⟩ }

/-- World for the C5 counterexample: an unchanged feed whose single event
candidate carries no `season` field. -/
def wC5x : World :=
  { baseWorld with feed := fun _ => some ⟨2025, [⟨some "X", none, []⟩]⟩ }

/-- World for the C5 witness: an unchanged well-formed feed (seasons set,
titles distinct). -/
def wC5w : World :=
  { baseWorld with
    feed := fun _ =>
      some ⟨2025, [⟨some "A", some 2025, []⟩, ⟨some "B", some 2025, []⟩]⟩ }

/-- First cycle's clock reading for C7. -/
def wC7a : World := baseWorld

/-- Second cycle's clock reading for C7: five seconds later. -/
def wC7b : World := { baseWorld with now := 100000005 }

/-- World for the C8 counterexample: two rendered pages, every image PUT
answered with status 500 (and no network error). -/
def wC8x : World :=
  { baseWorld with magick := fun _ _ => some 2, imagePut := fun _ => some 500 }

/-- World for the C8 witness: two rendered pages, all operations succeed. -/
def wC8w : World := { baseWorld with magick := fun _ _ => some 2 }

/-- Resolved event used by C8. -/
def reC8x : Event := ⟨5, "E", 2025, .f1, .notAllowed⟩

/-- Document candidate used by C8. -/
def dC8x : ParserDocument := ⟨some "D", some "u"⟩

/-- World for the C9 witness: one document in the first F1 event, taking five
time units to process. -/
def wC9 : World :=
  { baseWorld with
    feed := fun s => match s with
      | .f1 => some ⟨2025,
          [⟨some "E1", some 2025, [⟨some "D1", some "u1"⟩]⟩, ⟨some "E2", some 2025, []⟩]⟩
      | _ => some ⟨2025, []⟩,
    dur := fun _ => 5 }

/-- A flag that becomes set at instant 3, strictly inside the first document
unit's execution interval of the `wC9` run (that unit runs from instant 0 to
instant 6) and unset at every sampled boundary instant. -/
def gC9 : Nat → Bool := fun t => t == 3

/-- State for the C10 witness: the cache already holds a document row with
source url `u` (as if just persisted earlier in the same cycle). -/
def stC10 : St :=
  { st0 with
    cache := { LocalCache.empty with documents := [⟨4, 2, "T", "u", "m", .initial, 2025⟩] } }

/-- Resolved event used by the C10 witness. -/
def reC10 : Event := ⟨2, "E", 2025, .f1, .notAllowed⟩

/-- Document candidate used by the C10 witness: same source url `u` under a
different event. -/
def dC10 : ParserDocument := ⟨some "D", some "u"⟩

/-- Claim C4, counterexample: at elapsed = targetInterval (5000 ms) the code's
delay is 0, while the claimed `max(target − elapsed, floor)` formula gives the
1000 ms floor — so the delay is not that maximum, is zero, and does not equal
the floor although elapsed ≥ target. -/
theorem C4_counterexample : delayMs 5000 = 0 ∧ claimedDelayMs 5000 = 1000 := by
  decide

/-- Claim C4, amended: the delay equals `target − elapsed` whenever
elapsed ≤ target (which can be zero, or below the 1 s floor), and equals the
1 s fallback exactly when elapsed strictly exceeds the target. -/
theorem C4_amended :
    ∀ e : Nat, (5000 < e → delayMs e = 1000) ∧ (e ≤ 5000 → delayMs e = 5000 - e) := by
  intro e
  constructor
  · intro h
    have h' : ¬ e ≤ 5000 := by omega
    simp [delayMs, checkedSub, h']
  · intro h
    simp [delayMs, checkedSub, h]

/-- Claim C4, witness: the amended theorem applied at elapsed = 6000 ms
(overrun: 1 s fallback) and at elapsed = 3000 ms (normal: remaining 2 s). -/
theorem C4_amended_witness :
    (5000 < 6000 ∧ delayMs 6000 = 1000) ∧ (3000 ≤ 5000 ∧ delayMs 3000 = 2000) :=
  ⟨⟨by decide, (C4_amended 6000).1 (by decide)⟩,
    ⟨by decide, (C4_amended 3000).2 (by decide)⟩⟩

/-- Claim C6, counterexample: for event "Bahrain GP" and document
"Entry List" the URL built by `upload_mirror` is not the claimed key with
both title segments URL-encoded. -/
theorem C6_counterexample :
    mirrorUrl 2025 "Bahrain GP" "Entry List"
      ≠ "https://fia.ort.dev/mirror/2025/Bahrain%20GP/Entry%20List.pdf" := by
  decide

/-- Claim C6, amended: `upload_mirror` URL-encodes only the document-title
segment and interpolates the event title raw, so the example key is
`mirror/2025/Bahrain GP/Entry%20List.pdf`; the page-image keys built in the
page loop do URL-encode the event title. -/
theorem C6_amended :
    mirrorUrl 2025 "Bahrain GP" "Entry List"
        = "https://fia.ort.dev/mirror/2025/Bahrain GP/Entry%20List.pdf" ∧
      imgUrl 2025 "Bahrain GP" 7 0 = "https://fia.ort.dev/img/2025/Bahrain%20GP/7-0.jpg" := by
  decide

/-- Claim C3: a candidate reaching the orchestrator with a missing required
field is not dropped — the unwraps in `create_new_event` (event title) and in
the document loop (document title, document url) panic, terminating the
cycle and the process.  Evaluated at three concrete feeds, one per missing
field. -/
theorem C3_panics :
    (runner wC3a flagOff st0).1 = RunRes.panicked ∧
      (runner wC3b flagOff st0).1 = RunRes.panicked ∧
      (runner wC3c flagOff st0).1 = RunRes.panicked := by
  decide

/-- Claim C1, counterexample: with the download of the first document of the
first F1 event failing, the whole cycle returns that error — the second
document of the same event, the second F1 event and the F2 event are never
started (one `docStarted`, one `eventStarted`, no document row persisted). -/
theorem C1_counterexample :
    (runner wC1x flagOff st0).1 = RunRes.err Err.download ∧
      ((runner wC1x flagOff st0).2.trace.countP
          (fun e => match e with | .docStarted _ _ => true | _ => false)) = 1 ∧
      ((runner wC1x flagOff st0).2.trace.countP
          (fun e => match e with | .eventStarted _ _ => true | _ => false)) = 1 ∧
      (runner wC1x flagOff st0).2.store.documents = [] := by
  decide

/-- Claim C5, counterexample: an unchanged feed whose event candidate has no
`season` field misses the cache lookup (which tests the candidate's season
against the target year) in every cycle, so after two cycles the store holds
two Event rows with the same (title, year, series) key. -/
theorem C5_counterexample :
    ((runner wC5x flagOff (runner wC5x flagOff st0).2).2.store.events.countP
        (fun e => e.title == "X" && e.year == 2025 && e.series == Series.f1)) = 2 ∧
      eventsUnique ((runner wC5x flagOff (runner wC5x flagOff st0).2).2.store.events)
        = false := by
  decide

/-- Claim C7, counterexample: two consecutive cycles five seconds apart each
re-read the documents table (two `docsQuery` reads), because `runner` creates
a fresh `LocalCache::default()` (last_populated at the epoch) every cycle —
refuting "the document table is read at most once per day". -/
theorem C7_counterexample :
    wC7b.now - wC7a.now = 5 ∧
      ((runner wC7b flagOff (runner wC7a flagOff st0).2).2.trace.count
          TraceEntry.docsQuery) = 2 := by
  decide

/-- Claim C8, counterexample: every page PUT of the document is answered with
status 500, yet `upload_image` never inspects the status — both image rows
are persisted and the document is marked ReadyToPost, against the claim that
a non-success PUT status leaves the document Initial. -/
theorem C8_counterexample :
    (processDoc wC8x 2025 reC8x 0 dC8x st0).1 = RunRes.ok () ∧
      ((processDoc wC8x 2025 reC8x 0 dC8x st0).2.store.documents.countP
          (fun d => d.status == DocumentStatus.readyToPost)) = 1 ∧
      (processDoc wC8x 2025 reC8x 0 dC8x st0).2.store.images.length = 2 ∧
      wC8x.imagePut (imgUrl 2025 "E" 1 0) = some 500 := by
  decide

/-- Claim C2, counterexample: with the events read failing, `populate_cache`
returns the error but the cache's event and document lists — non-empty
before the call — have been cleared, so the cache is not in its pre-call
state. -/
theorem C2_counterexample :
    (populateCache wC2x 2025 stC2x).1 = RunRes.err Err.db ∧
      (populateCache wC2x 2025 stC2x).2.cache.events = [] ∧
      stC2x.cache.events ≠ [] ∧
      (populateCache wC2x 2025 stC2x).2.cache.documents = [] ∧
      stC2x.cache.documents ≠ [] := by
  decide

/-- Frame lemma for the page loop: it only appends `imgPut` trace entries and
image rows and bumps the db counter; every other state component is
unchanged, and it never panics. -/
theorem pagesLoop_frame (w : World) (year : Int) (evTitle : String) (docId : Nat) :
    ∀ (pages : List Nat) (st : St),
      (∃ dt, (pagesLoop w year evTitle docId pages st).2.trace = st.trace ++ dt ∧
        ∀ x ∈ dt, ∃ u, x = TraceEntry.imgPut u) ∧
      (pagesLoop w year evTitle docId pages st).2.samples = st.samples ∧
      (pagesLoop w year evTitle docId pages st).2.cache = st.cache ∧
      (pagesLoop w year evTitle docId pages st).2.store.documents = st.store.documents ∧
      (pagesLoop w year evTitle docId pages st).2.store.events = st.store.events ∧
      (pagesLoop w year evTitle docId pages st).2.store.nextDocId = st.store.nextDocId ∧
      (pagesLoop w year evTitle docId pages st).2.store.nextEventId = st.store.nextEventId ∧
      (pagesLoop w year evTitle docId pages st).2.time = st.time ∧
      (pagesLoop w year evTitle docId pages st).2.units = st.units ∧
      (pagesLoop w year evTitle docId pages st).2.tmpOps = st.tmpOps ∧
      (pagesLoop w year evTitle docId pages st).1 ≠ RunRes.panicked := by
  intro pages
  induction pages with
  | nil =>
    intro st
    refine ⟨⟨[], by simp [pagesLoop], by simp⟩, ?_⟩
    simp [pagesLoop]
  | cons p rest ih =>
    intro st
    simp only [pagesLoop]
    cases hr : w.pageRead docId p with
    | none =>
      refine ⟨⟨[], by simp, by simp⟩, ?_⟩
      simp
    | some b =>
      cases hp : w.imagePut (imgUrl year evTitle docId p) with
      | none =>
        refine ⟨⟨[TraceEntry.imgPut (imgUrl year evTitle docId p)], by simp [pushTrace], ?_⟩, ?_⟩
        · intro x hx
          simp at hx
          exact ⟨_, hx⟩
        · simp [pushTrace]
      | some c =>
        cases hdb : w.dbFail (pushTrace (TraceEntry.imgPut (imgUrl year evTitle docId p)) st).dbOps with
        | true =>
          simp only [hdb, if_true]
          refine ⟨⟨[TraceEntry.imgPut (imgUrl year evTitle docId p)], by simp [pushTrace], ?_⟩, ?_⟩
          · intro x hx
            simp at hx
            exact ⟨_, hx⟩
          · simp [pushTrace]
        | false =>
          simp only [hdb, if_false]
          obtain ⟨⟨dt, hdt, hall⟩, hsamp, hcache, hdocs, hev, hnd, hne, htime, hunits, htmp, hpan⟩ :=
            ih { pushTrace (TraceEntry.imgPut (imgUrl year evTitle docId p)) st with
              dbOps := (pushTrace (TraceEntry.imgPut (imgUrl year evTitle docId p)) st).dbOps + 1,
              store := { (pushTrace (TraceEntry.imgPut (imgUrl year evTitle docId p)) st).store with
                images := (pushTrace (TraceEntry.imgPut (imgUrl year evTitle docId p)) st).store.images
                  ++ [⟨docId, p, imgUrl year evTitle docId p⟩] } }
          refine ⟨⟨TraceEntry.imgPut (imgUrl year evTitle docId p) :: dt, ?_, ?_⟩, ?_⟩
          · simpa [pushTrace] using hdt
          · intro x hx
            rcases List.mem_cons.mp hx with h | h
            · exact ⟨_, h⟩
            · exact hall x h
          · simp_all [pushTrace]

/-- The page loop persists image rows for a prefix of its page list, in
order; it persists all of them exactly when it returns `Ok`. -/
theorem pagesLoop_images (w : World) (year : Int) (evTitle : String) (docId : Nat) :
    ∀ (pages : List Nat) (st : St),
      ∃ k, k ≤ pages.length ∧
        (pagesLoop w year evTitle docId pages st).2.store.images
          = st.store.images
            ++ (pages.take k).map (fun p => ⟨docId, p, imgUrl year evTitle docId p⟩) ∧
        ((pagesLoop w year evTitle docId pages st).1 = RunRes.ok () → k = pages.length) := by
  intro pages
  induction pages with
  | nil =>
    intro st
    exact ⟨0, by simp, by simp [pagesLoop], by simp [pagesLoop]⟩
  | cons p rest ih =>
    intro st
    simp only [pagesLoop]
    cases hr : w.pageRead docId p with
    | none => exact ⟨0, by simp, by simp, by simp⟩
    | some b =>
      cases hp : w.imagePut (imgUrl year evTitle docId p) with
      | none => exact ⟨0, by simp, by simp [pushTrace], by simp⟩
      | some c =>
        cases hdb : w.dbFail (pushTrace (TraceEntry.imgPut (imgUrl year evTitle docId p)) st).dbOps with
        | true =>
          simp only [hdb, if_true]
          exact ⟨0, by simp, by simp [pushTrace], by simp⟩
        | false =>
          simp only [hdb, if_false]
          obtain ⟨k, hk, him, hok⟩ :=
            ih { pushTrace (TraceEntry.imgPut (imgUrl year evTitle docId p)) st with
              dbOps := (pushTrace (TraceEntry.imgPut (imgUrl year evTitle docId p)) st).dbOps + 1,
              store := { (pushTrace (TraceEntry.imgPut (imgUrl year evTitle docId p)) st).store with
                images := (pushTrace (TraceEntry.imgPut (imgUrl year evTitle docId p)) st).store.images
                  ++ [⟨docId, p, imgUrl year evTitle docId p⟩] } }
          refine ⟨k + 1, by simpa using hk, ?_, ?_⟩
          · simpa [pushTrace, List.take_succ_cons] using him
          · intro h
            simp [hok h]

/-- Frame and trace characterization for the pipeline tail: it leaves the
cache, samples, clock and event table untouched, appends only `imgPut` and
`docCompleted url` trace entries, always records a `docCompleted url` entry,
never panics, and only ever rewrites document rows in place (preserving id
and href). -/
theorem docPipelineTail_spec (w : World) (year : Int) (evTitle : String) (i : Nat)
    (url : String) (docId : Nat) (st : St) :
    (∃ dt, (docPipelineTail w year evTitle i url docId st).2.trace = st.trace ++ dt ∧
      ∀ x ∈ dt, (∃ u2, x = TraceEntry.imgPut u2) ∨ ∃ b, x = TraceEntry.docCompleted url b) ∧
      (∃ b, TraceEntry.docCompleted url b ∈ (docPipelineTail w year evTitle i url docId st).2.trace) ∧
      (docPipelineTail w year evTitle i url docId st).2.samples = st.samples ∧
      (docPipelineTail w year evTitle i url docId st).2.cache = st.cache ∧
      (docPipelineTail w year evTitle i url docId st).2.store.events = st.store.events ∧
      (docPipelineTail w year evTitle i url docId st).2.store.nextEventId = st.store.nextEventId ∧
      (docPipelineTail w year evTitle i url docId st).2.store.nextDocId = st.store.nextDocId ∧
      (docPipelineTail w year evTitle i url docId st).2.time = st.time ∧
      (docPipelineTail w year evTitle i url docId st).2.units = st.units ∧
      (docPipelineTail w year evTitle i url docId st).2.tmpOps = st.tmpOps ∧
      (docPipelineTail w year evTitle i url docId st).1 ≠ RunRes.panicked ∧
      (∀ r2 ∈ (docPipelineTail w year evTitle i url docId st).2.store.documents,
        ∃ r1 ∈ st.store.documents, r2.href = r1.href ∧ r2.id = r1.id) := by
  cases hmg : w.magick i url with
  | none =>
    simp only [docPipelineTail, hmg]
    refine ⟨⟨[TraceEntry.docCompleted url false], by simp [pushTrace], ?_⟩, ?_, ?_⟩
    · intro x hx
      simp at hx
      exact Or.inr ⟨false, hx⟩
    · exact ⟨false, by simp [pushTrace]⟩
    · simp [pushTrace]
      intro r2 h
      exact ⟨r2, h, rfl, rfl⟩
  | some n =>
    cases hpl : pagesLoop w year evTitle docId (List.range n) st with
    | mk r st4 =>
      obtain ⟨⟨dt, hdt, hall⟩, hsamp, hcache, hdocs, hev, hnd, hne, htime, hunits, htmp, hpan⟩ :=
        pagesLoop_frame w year evTitle docId (List.range n) st
      rw [hpl] at hdt hsamp hcache hdocs hev hnd hne htime hunits htmp hpan
      simp only at hdt hsamp hcache hdocs hev hnd hne htime hunits htmp hpan
      cases r with
      | ok a =>
        cases hdb : w.dbFail st4.dbOps with
        | true =>
          simp only [docPipelineTail, hmg, hpl, hdb, if_true]
          refine ⟨⟨dt ++ [TraceEntry.docCompleted url false], by simp [pushTrace, hdt], ?_⟩,
            ⟨false, by simp [pushTrace]⟩, by simp [pushTrace, hsamp],
            by simp [pushTrace, hcache], by simp [pushTrace, hev],
            by simp [pushTrace, hne], by simp [pushTrace, hnd],
            by simp [pushTrace, htime], by simp [pushTrace, hunits],
            by simp [pushTrace, htmp], by simp, ?_⟩
          · intro x hx
            rcases List.mem_append.mp hx with h | h
            · rcases hall x h with ⟨u2, hu2⟩
              exact Or.inl ⟨u2, hu2⟩
            · simp at h
              exact Or.inr ⟨false, h⟩
          · intro r2 h
            simp [pushTrace] at h
            rw [hdocs] at h
            exact ⟨r2, h, rfl, rfl⟩
        | false =>
          simp only [docPipelineTail, hmg, hpl, hdb, if_false]
          refine ⟨⟨dt ++ [TraceEntry.docCompleted url true], by simp [pushTrace, hdt], ?_⟩,
            ⟨true, by simp [pushTrace]⟩, by simp [pushTrace, hsamp],
            by simp [pushTrace, hcache], by simp [pushTrace, setDocStatus, hev],
            by simp [pushTrace, setDocStatus, hne], by simp [pushTrace, setDocStatus, hnd],
            by simp [pushTrace, htime], by simp [pushTrace, hunits],
            by simp [pushTrace, htmp], by simp, ?_⟩
          · intro x hx
            rcases List.mem_append.mp hx with h | h
            · rcases hall x h with ⟨u2, hu2⟩
              exact Or.inl ⟨u2, hu2⟩
            · simp at h
              exact Or.inr ⟨true, h⟩
          · intro r2 h
            simp [pushTrace, setDocStatus] at h
            rw [hdocs] at h
            obtain ⟨r1, hr1, hr2⟩ := h
            refine ⟨r1, hr1, ?_⟩
            by_cases hid : r1.id = docId
            · simp only [hid, if_true] at hr2
              subst hr2
              exact ⟨rfl, hid.symm⟩
            · simp only [hid, if_false] at hr2
              subst hr2
              exact ⟨rfl, rfl⟩
      | err e =>
        simp only [docPipelineTail, hmg, hpl]
        refine ⟨⟨dt ++ [TraceEntry.docCompleted url false], by simp [pushTrace, hdt], ?_⟩,
          ⟨false, by simp [pushTrace]⟩, by simp [pushTrace, hsamp],
          by simp [pushTrace, hcache], by simp [pushTrace, hev],
          by simp [pushTrace, hne], by simp [pushTrace, hnd],
          by simp [pushTrace, htime], by simp [pushTrace, hunits],
          by simp [pushTrace, htmp], by simp, ?_⟩
        · intro x hx
          rcases List.mem_append.mp hx with h | h
          · rcases hall x h with ⟨u2, hu2⟩
            exact Or.inl ⟨u2, hu2⟩
          · simp at h
            exact Or.inr ⟨false, h⟩
        · intro r2 h
          simp [pushTrace] at h
          rw [hdocs] at h
          exact ⟨r2, h, rfl, rfl⟩
      | panicked => exact absurd rfl hpan

/-- Updating a row by id is the identity on a list that does not contain the
id. -/
theorem docsMap_id (l : List Document) (docId : Nat) (status : DocumentStatus)
    (h : ∀ r ∈ l, r.id ≠ docId) :
    l.map (fun r => if r.id == docId then { r with status := status } else r) = l := by
  induction l with
  | nil => simp
  | cons a as ih =>
    have ha : (a.id == docId) = false := by
      simpa using h a (by simp)
    simp only [List.map_cons, ha, Bool.false_eq_true, if_false, List.cons.injEq, true_and]
    exact ih (fun r hr => h r (List.mem_cons_of_mem a hr))

/-- Exact shape of the pipeline tail's effect on the document and image
tables: on success the row's status is updated and one image row per
rendered page was persisted; on error the document table is untouched and
the image rows form a prefix of the rendered pages. -/
theorem docPipelineTail_c8 (w : World) (year : Int) (evTitle : String) (i : Nat)
    (url : String) (docId : Nat) (st : St) :
    ((docPipelineTail w year evTitle i url docId st).1 = RunRes.ok () →
      ∃ n, w.magick i url = some n ∧
        (docPipelineTail w year evTitle i url docId st).2.store.documents
          = (setDocStatus st.store docId DocumentStatus.readyToPost).documents ∧
        (docPipelineTail w year evTitle i url docId st).2.store.images
          = st.store.images
            ++ (List.range n).map (fun p => ⟨docId, p, imgUrl year evTitle docId p⟩)) ∧
    (∀ e, (docPipelineTail w year evTitle i url docId st).1 = RunRes.err e →
      (docPipelineTail w year evTitle i url docId st).2.store.documents
          = st.store.documents ∧
      ∃ k, (∀ n, w.magick i url = some n → k ≤ n) ∧
        (docPipelineTail w year evTitle i url docId st).2.store.images
          = st.store.images
            ++ (List.range k).map (fun p => ⟨docId, p, imgUrl year evTitle docId p⟩)) := by
  cases hmg : w.magick i url with
  | none =>
    simp only [docPipelineTail, hmg]
    constructor
    · intro h
      simp at h
    · intro e he
      refine ⟨by simp [pushTrace], 0, by simp, by simp [pushTrace]⟩
  | some n =>
    cases hpl : pagesLoop w year evTitle docId (List.range n) st with
    | mk r st4 =>
      obtain ⟨_, _, _, hdocs, _, _, _, _, _, _, hpan⟩ :=
        pagesLoop_frame w year evTitle docId (List.range n) st
      obtain ⟨k, hk, him, hok⟩ := pagesLoop_images w year evTitle docId (List.range n) st
      rw [hpl] at hdocs hpan him hok
      simp only at hdocs hpan him hok
      have hkn : k ≤ n := by simpa using hk
      cases r with
      | ok a =>
        have hkeq : k = n := by simpa using hok rfl
        have htk : (List.range n).take k = List.range n := by
          rw [hkeq, List.take_range]
          simp
        rw [htk] at him
        cases hdb : w.dbFail st4.dbOps with
        | true =>
          simp only [docPipelineTail, hmg, hpl, hdb, if_true]
          constructor
          · intro h
            simp at h
          · intro e he
            exact ⟨by simp [pushTrace, hdocs], n, fun n2 hn2 => by
                simp at hn2
                omega,
              by simp [pushTrace, him]⟩
        | false =>
          simp only [docPipelineTail, hmg, hpl, hdb, if_false]
          constructor
          · intro h
            refine ⟨n, rfl, ?_, ?_⟩
            · simp [pushTrace, setDocStatus, hdocs]
            · simp [pushTrace, setDocStatus, him]
          · intro e he
            simp [pushTrace] at he
      | err e0 =>
        have htk : (List.range n).take k = List.range k := by
          rw [List.take_range]
          simp [Nat.min_eq_left hkn]
        rw [htk] at him
        simp only [docPipelineTail, hmg, hpl]
        constructor
        · intro h
          simp [pushTrace] at h
        · intro e he
          exact ⟨by simp [pushTrace, hdocs], k, fun n2 hn2 => by
              simp at hn2
              omega,
            by simp [pushTrace, him]⟩
      | panicked => exact absurd rfl hpan

/-- Composition helper for the pipeline tail: started from a state `st3` that
extends a base state `st` by the front half of the document pipeline (the
three trace entries, one fresh row in both the document table and the cache),
the tail preserves the base state's frame properties and the dedup
invariant. -/
theorem processDoc_tail_leaf (w : World) (year : Int) (evTitle : String) (i : Nat)
    (url : String) (docId : Nat) (st3 st : St) (row : Document)
    (hdt0 : ∃ dt0, st3.trace = st.trace ++ dt0 ∧
      ∀ x ∈ dt0, (∀ t2 ti, x ≠ TraceEntry.eventStarted t2 ti) ∧
        (∀ t2 u2, x = TraceEntry.docStarted t2 u2 → t2 = st.time ∧ u2 = url))
    (hsamp : st3.samples = st.samples)
    (htime : st3.time = st.time)
    (hunits : st3.units = st.units)
    (htmp : st3.tmpOps = st.tmpOps)
    (hev : st3.store.events = st.store.events)
    (hne : st3.store.nextEventId = st.store.nextEventId)
    (hcev : st3.cache.events = st.cache.events)
    (hcdocs : st3.cache.documents = st.cache.documents ++ [row])
    (hsdocs : st3.store.documents = st.store.documents ++ [row])
    (hrowh : row.href = url)
    (hrowid : row.id = docId)
    (hdocid : docId = st.store.nextDocId) :
    (∃ dt, (docPipelineTail w year evTitle i url docId st3).2.trace = st.trace ++ dt ∧
      ∀ x ∈ dt,
        (∀ t2 ti, x ≠ TraceEntry.eventStarted t2 ti) ∧
        (∀ t2 u2, x = TraceEntry.docStarted t2 u2 →
          t2 = st.time ∧ ∃ b, TraceEntry.docCompleted u2 b
            ∈ (docPipelineTail w year evTitle i url docId st3).2.trace)) ∧
      (docPipelineTail w year evTitle i url docId st3).2.samples = st.samples ∧
      (docPipelineTail w year evTitle i url docId st3).2.time = st.time ∧
      (docPipelineTail w year evTitle i url docId st3).2.units = st.units ∧
      (docPipelineTail w year evTitle i url docId st3).2.tmpOps = st.tmpOps ∧
      (docPipelineTail w year evTitle i url docId st3).2.store.events = st.store.events ∧
      (docPipelineTail w year evTitle i url docId st3).2.store.nextEventId
        = st.store.nextEventId ∧
      (docPipelineTail w year evTitle i url docId st3).2.cache.events = st.cache.events ∧
      (∃ dd, (docPipelineTail w year evTitle i url docId st3).2.cache.documents
        = st.cache.documents ++ dd) ∧
      ((∀ r ∈ st.store.documents, r.id ≠ st.store.nextDocId) →
        ∀ r2 ∈ (docPipelineTail w year evTitle i url docId st3).2.store.documents,
          r2 ∈ st.store.documents ∨
            ∃ c ∈ (docPipelineTail w year evTitle i url docId st3).2.cache.documents,
              c.href = r2.href) := by
  obtain ⟨⟨dtT, hdtT, hallT⟩, ⟨bT, hbT⟩, hsampT, hcacheT, hevT, hneT, hndT, htimeT, hunitsT,
    htmpT, hpanT, _⟩ := docPipelineTail_spec w year evTitle i url docId st3
  obtain ⟨dt0, hdt0eq, hdt0all⟩ := hdt0
  obtain ⟨hc8ok, hc8err⟩ := docPipelineTail_c8 w year evTitle i url docId st3
  refine ⟨⟨dt0 ++ dtT, by rw [hdtT, hdt0eq, List.append_assoc], ?_⟩,
    by rw [hsampT, hsamp], by rw [htimeT, htime], by rw [hunitsT, hunits],
    by rw [htmpT, htmp], by rw [hevT, hev], by rw [hneT, hne],
    by rw [hcacheT, hcev], ⟨[row], by rw [hcacheT, hcdocs]⟩, ?_⟩
  · intro x hx
    rcases List.mem_append.mp hx with h | h
    · obtain ⟨hne2, hds⟩ := hdt0all x h
      refine ⟨hne2, ?_⟩
      intro t2 u2 heq
      obtain ⟨ht2, hu2⟩ := hds t2 u2 heq
      subst hu2
      exact ⟨ht2, bT, hbT⟩
    · rcases hallT x h with ⟨u2, hu2⟩ | ⟨b2, hb2⟩
      · subst hu2
        exact ⟨by simp, by simp⟩
      · subst hb2
        exact ⟨by simp, by simp⟩
  · intro hcol r2 hr2
    cases hres : (docPipelineTail w year evTitle i url docId st3).1 with
    | ok a =>
      obtain ⟨n, _, hdocsEq, _⟩ := hc8ok (by rw [hres])
      rw [hdocsEq] at hr2
      simp only [setDocStatus, hsdocs, List.map_append] at hr2
      rw [docsMap_id st.store.documents docId DocumentStatus.readyToPost
        (fun r hr => by rw [hdocid]; exact hcol r hr)] at hr2
      rcases List.mem_append.mp hr2 with h | h
      · exact Or.inl h
      · refine Or.inr ⟨row, ?_, ?_⟩
        · rw [hcacheT, hcdocs]
          simp
        · simp only [List.map_cons, List.map_nil, List.mem_singleton] at h
          subst h
          simp [hrowid]
    | err e =>
      obtain ⟨hdocsEq, _⟩ := hc8err e (by rw [hres])
      rw [hdocsEq, hsdocs] at hr2
      rcases List.mem_append.mp hr2 with h | h
      · exact Or.inl h
      · refine Or.inr ⟨row, ?_, ?_⟩
        · rw [hcacheT, hcdocs]
          simp
        · simp only [List.mem_singleton] at h
          subst h
          rfl
    | panicked => exact absurd hres hpanT

/-- Frame and trace characterization of the per-document pipeline: the
samples, clock, unit counter, scratch counter, event table and cached events
are untouched; the trace gains no `eventStarted` entry, and any new
`docStarted` entry carries the entry instant and is matched by a
`docCompleted` entry for the same url; the cache's document list only grows;
and (in a store whose rows do not collide with the next rowid) every
document row after the call is either an old row or has its source url in
the cache — the dedup invariant. -/
theorem processDoc_spec (w : World) (year : Int) (re : Event) (i : Nat)
    (d : ParserDocument) (st : St) :
    (∃ dt, (processDoc w year re i d st).2.trace = st.trace ++ dt ∧
      ∀ x ∈ dt,
        (∀ t2 ti, x ≠ TraceEntry.eventStarted t2 ti) ∧
        (∀ t2 u2, x = TraceEntry.docStarted t2 u2 →
          t2 = st.time ∧ ∃ b, TraceEntry.docCompleted u2 b
            ∈ (processDoc w year re i d st).2.trace)) ∧
      (processDoc w year re i d st).2.samples = st.samples ∧
      (processDoc w year re i d st).2.time = st.time ∧
      (processDoc w year re i d st).2.units = st.units ∧
      (processDoc w year re i d st).2.tmpOps = st.tmpOps ∧
      (processDoc w year re i d st).2.store.events = st.store.events ∧
      (processDoc w year re i d st).2.store.nextEventId = st.store.nextEventId ∧
      (processDoc w year re i d st).2.cache.events = st.cache.events ∧
      (∃ dd, (processDoc w year re i d st).2.cache.documents = st.cache.documents ++ dd) ∧
      ((∀ r ∈ st.store.documents, r.id ≠ st.store.nextDocId) →
        ∀ row ∈ (processDoc w year re i d st).2.store.documents,
          row ∈ st.store.documents ∨
            ∃ c ∈ (processDoc w year re i d st).2.cache.documents, c.href = row.href) := by
  obtain ⟨dtit, durl⟩ := d
  cases dtit with
  | none =>
    refine ⟨⟨[], by simp [processDoc], by simp⟩, by simp [processDoc], by simp [processDoc],
      by simp [processDoc], by simp [processDoc], by simp [processDoc], by simp [processDoc],
      by simp [processDoc], ⟨[], by simp [processDoc]⟩, ?_⟩
    intro hcol row h
    simp only [processDoc] at h
    exact Or.inl h
  | some t =>
    cases durl with
    | none =>
      refine ⟨⟨[], by simp [processDoc], by simp⟩, by simp [processDoc], by simp [processDoc],
        by simp [processDoc], by simp [processDoc], by simp [processDoc], by simp [processDoc],
        by simp [processDoc], ⟨[], by simp [processDoc]⟩, ?_⟩
      intro hcol row h
      simp only [processDoc] at h
      exact Or.inl h
    | some u =>
      cases hc : st.cache.documents.any (fun f => f.href == u) with
      | true =>
        simp only [processDoc, hc, if_true]
        refine ⟨⟨[TraceEntry.docSkipped u], by simp [pushTrace], ?_⟩,
          by simp [pushTrace], by simp [pushTrace], by simp [pushTrace], by simp [pushTrace],
          by simp [pushTrace], by simp [pushTrace], by simp [pushTrace],
          ⟨[], by simp [pushTrace]⟩, ?_⟩
        · intro x hx
          simp at hx
          subst hx
          exact ⟨by simp, by simp⟩
        · intro hcol row h
          simp only [pushTrace] at h
          exact Or.inl h
      | false =>
        cases hdl : w.download u with
        | none =>
          simp only [processDoc, hc, Bool.false_eq_true, if_false, hdl, pushTrace]
          refine ⟨⟨[TraceEntry.docStarted st.time u, TraceEntry.downloadReq u,
            TraceEntry.docCompleted u false], by simp, ?_⟩,
            by simp, by simp, by simp, by simp, by simp, by simp, by simp,
            ⟨[], by simp⟩, ?_⟩
          · intro x hx
            simp at hx
            rcases hx with h | h | h <;> subst h
            · refine ⟨by simp, ?_⟩
              intro t2 u2 heq
              cases heq
              exact ⟨rfl, false, by simp⟩
            · exact ⟨by simp, by simp⟩
            · exact ⟨by simp, by simp⟩
          · intro hcol row h
            exact Or.inl h
        | some body =>
          cases hmr : w.mirrorResp (mirrorUrl year re.title t) with
          | none =>
            simp only [processDoc, hc, Bool.false_eq_true, if_false, hdl, hmr, pushTrace]
            refine ⟨⟨[TraceEntry.docStarted st.time u, TraceEntry.downloadReq u,
              TraceEntry.mirrorPut (mirrorUrl year re.title t),
              TraceEntry.docCompleted u false], by simp, ?_⟩,
              by simp, by simp, by simp, by simp, by simp, by simp, by simp,
              ⟨[], by simp⟩, ?_⟩
            · intro x hx
              simp at hx
              rcases hx with h | h | h | h <;> subst h
              · refine ⟨by simp, ?_⟩
                intro t2 u2 heq
                cases heq
                exact ⟨rfl, false, by simp⟩
              · exact ⟨by simp, by simp⟩
              · exact ⟨by simp, by simp⟩
              · exact ⟨by simp, by simp⟩
            · intro hcol row h
              exact Or.inl h
          | some code =>
            by_cases h400 : 400 ≤ code
            · simp only [processDoc, hc, Bool.false_eq_true, if_false, hdl, hmr, h400,
                if_true, pushTrace]
              refine ⟨⟨[TraceEntry.docStarted st.time u, TraceEntry.downloadReq u,
                TraceEntry.mirrorPut (mirrorUrl year re.title t),
                TraceEntry.docCompleted u false], by simp, ?_⟩,
                by simp, by simp, by simp, by simp, by simp, by simp, by simp,
                ⟨[], by simp⟩, ?_⟩
              · intro x hx
                simp at hx
                rcases hx with h | h | h | h <;> subst h
                · refine ⟨by simp, ?_⟩
                  intro t2 u2 heq
                  cases heq
                  exact ⟨rfl, false, by simp⟩
                · exact ⟨by simp, by simp⟩
                · exact ⟨by simp, by simp⟩
                · exact ⟨by simp, by simp⟩
              · intro hcol row h
                exact Or.inl h
            · cases hdb : w.dbFail st.dbOps with
              | true =>
                simp only [processDoc, hc, Bool.false_eq_true, if_false, hdl, hmr, h400,
                  hdb, if_true, pushTrace]
                refine ⟨⟨[TraceEntry.docStarted st.time u, TraceEntry.downloadReq u,
                  TraceEntry.mirrorPut (mirrorUrl year re.title t),
                  TraceEntry.docCompleted u false], by simp, ?_⟩,
                  by simp, by simp, by simp, by simp, by simp, by simp, by simp,
                  ⟨[], by simp⟩, ?_⟩
                · intro x hx
                  simp at hx
                  rcases hx with h | h | h | h <;> subst h
                  · refine ⟨by simp, ?_⟩
                    intro t2 u2 heq
                    cases heq
                    exact ⟨rfl, false, by simp⟩
                  · exact ⟨by simp, by simp⟩
                  · exact ⟨by simp, by simp⟩
                  · exact ⟨by simp, by simp⟩
                · intro hcol row h
                  exact Or.inl h
              | false =>
                simp only [processDoc, hc, Bool.false_eq_true, if_false, hdl, hmr, h400,
                  hdb, pushTrace]
                refine processDoc_tail_leaf w year re.title i u _ _ st
                  ⟨st.store.nextDocId, re.id, t, u, mirrorUrl year re.title t,
                    DocumentStatus.initial, w.year⟩
                  ⟨[TraceEntry.docStarted st.time u, TraceEntry.downloadReq u,
                    TraceEntry.mirrorPut (mirrorUrl year re.title t)], by simp, ?_⟩
                  rfl rfl rfl rfl rfl rfl rfl rfl rfl rfl rfl rfl
                intro x hx
                simp at hx
                rcases hx with h | h | h <;> subst h
                · refine ⟨by simp, ?_⟩
                  intro t2 u2 heq
                  cases heq
                  exact ⟨rfl, rfl⟩
                · exact ⟨by simp, by simp⟩
                · exact ⟨by simp, by simp⟩

/-- Composition helper for C8: started from a state that extends the base
state by the freshly inserted row (and nothing else in the document/image
tables), the tail on success flips exactly that row to ReadyToPost with one
image row per page, and on error leaves the row as inserted with a prefix of
the pages' image rows. -/
theorem processDoc_c8_leaf (w : World) (year : Int) (evTitle : String) (i : Nat)
    (url : String) (docId : Nat) (st3 st : St) (row : Document)
    (hsdocs : st3.store.documents = st.store.documents ++ [row])
    (himg : st3.store.images = st.store.images)
    (hrowid : row.id = docId)
    (hcol : ∀ r ∈ st.store.documents, r.id ≠ docId) :
    ((docPipelineTail w year evTitle i url docId st3).1 = RunRes.ok () →
      ∃ n, w.magick i url = some n ∧
        (docPipelineTail w year evTitle i url docId st3).2.store.documents
          = st.store.documents ++ [{ row with status := DocumentStatus.readyToPost }] ∧
        (docPipelineTail w year evTitle i url docId st3).2.store.images
          = st.store.images
            ++ (List.range n).map (fun p => ⟨docId, p, imgUrl year evTitle docId p⟩)) ∧
    (∀ e, (docPipelineTail w year evTitle i url docId st3).1 = RunRes.err e →
      (docPipelineTail w year evTitle i url docId st3).2.store.documents
          = st.store.documents ++ [row] ∧
      ∃ k, (∀ n, w.magick i url = some n → k ≤ n) ∧
        (docPipelineTail w year evTitle i url docId st3).2.store.images
          = st.store.images
            ++ (List.range k).map (fun p => ⟨docId, p, imgUrl year evTitle docId p⟩)) := by
  obtain ⟨hc8ok, hc8err⟩ := docPipelineTail_c8 w year evTitle i url docId st3
  constructor
  · intro hok
    obtain ⟨n, hmg, hdocsEq, himEq⟩ := hc8ok hok
    refine ⟨n, hmg, ?_, ?_⟩
    · rw [hdocsEq]
      simp only [setDocStatus, hsdocs, List.map_append]
      rw [docsMap_id st.store.documents docId DocumentStatus.readyToPost hcol]
      simp [hrowid]
    · rw [himEq, himg]
  · intro e he
    obtain ⟨hdocsEq, k, hkle, himEq⟩ := hc8err e he
    exact ⟨by rw [hdocsEq, hsdocs], k, hkle, by rw [himEq, himg]⟩

/-- Claim C8, amended: the document's status is updated to ReadyToPost only
after every rendered page's upload request completed at the network level
and its Image row was persisted — the HTTP response status of a page PUT is
not inspected.  On any per-page failure (network error, file read error or
image-row insert error) the remaining pages are not attempted and the
document row keeps status Initial, with image rows for exactly the pages
already persisted (a prefix of the rendered pages). -/
theorem C8_amended (w : World) (year : Int) (re : Event) (i : Nat)
    (d : ParserDocument) (st : St) (t u : String)
    (htit : d.title = some t) (hurl : d.url = some u)
    (hc : st.cache.documents.any (fun f => f.href == u) = false)
    (hcol : ∀ r ∈ st.store.documents, r.id ≠ st.store.nextDocId) :
    ((processDoc w year re i d st).1 = RunRes.ok () →
      ∃ n, w.magick i u = some n ∧
        (processDoc w year re i d st).2.store.documents
          = st.store.documents ++ [⟨st.store.nextDocId, re.id, t, u,
              mirrorUrl year re.title t, DocumentStatus.readyToPost, w.year⟩] ∧
        (processDoc w year re i d st).2.store.images
          = st.store.images ++ (List.range n).map
              (fun p => ⟨st.store.nextDocId, p, imgUrl year re.title st.store.nextDocId p⟩)) ∧
    (∀ e, (processDoc w year re i d st).1 = RunRes.err e →
      ((processDoc w year re i d st).2.store.documents = st.store.documents ∧
        (processDoc w year re i d st).2.store.images = st.store.images) ∨
      ((processDoc w year re i d st).2.store.documents
          = st.store.documents ++ [⟨st.store.nextDocId, re.id, t, u,
              mirrorUrl year re.title t, DocumentStatus.initial, w.year⟩] ∧
        ∃ k, (∀ n, w.magick i u = some n → k ≤ n) ∧
          (processDoc w year re i d st).2.store.images
            = st.store.images ++ (List.range k).map
                (fun p => ⟨st.store.nextDocId, p, imgUrl year re.title st.store.nextDocId p⟩))) := by
  obtain ⟨dtit, durl⟩ := d
  simp only at htit hurl
  subst htit
  subst hurl
  cases hdl : w.download u with
  | none =>
    simp only [processDoc, hc, Bool.false_eq_true, if_false, hdl, pushTrace]
    constructor
    · intro h
      simp at h
    · intro e he
      exact Or.inl ⟨by trivial, by trivial⟩
  | some body =>
    cases hmr : w.mirrorResp (mirrorUrl year re.title t) with
    | none =>
      simp only [processDoc, hc, Bool.false_eq_true, if_false, hdl, hmr, pushTrace]
      constructor
      · intro h
        simp at h
      · intro e he
        exact Or.inl ⟨by trivial, by trivial⟩
    | some code =>
      by_cases h400 : 400 ≤ code
      · simp only [processDoc, hc, Bool.false_eq_true, if_false, hdl, hmr, h400, if_true,
          pushTrace]
        constructor
        · intro h
          simp at h
        · intro e he
          exact Or.inl ⟨by trivial, by trivial⟩
      · cases hdb : w.dbFail st.dbOps with
        | true =>
          simp only [processDoc, hc, Bool.false_eq_true, if_false, hdl, hmr, h400, hdb,
            if_true, pushTrace]
          constructor
          · intro h
            simp at h
          · intro e he
            exact Or.inl ⟨by trivial, by trivial⟩
        | false =>
          simp only [processDoc, hc, Bool.false_eq_true, if_false, hdl, hmr, h400, hdb,
            pushTrace]
          obtain ⟨hok, herr⟩ := processDoc_c8_leaf w year re.title i u st.store.nextDocId
            { pushTrace (TraceEntry.mirrorPut (mirrorUrl year re.title t))
                (pushTrace (TraceEntry.downloadReq u)
                  (pushTrace (TraceEntry.docStarted st.time u) st)) with
              dbOps := st.dbOps + 1,
              store := { st.store with
                documents := st.store.documents ++ [⟨st.store.nextDocId, re.id, t, u,
                  mirrorUrl year re.title t, DocumentStatus.initial, w.year⟩],
                nextDocId := st.store.nextDocId + 1 },
              cache := { st.cache with
                documents := st.cache.documents ++ [⟨st.store.nextDocId, re.id, t, u,
                  mirrorUrl year re.title t, DocumentStatus.initial, w.year⟩] } }
            st
            ⟨st.store.nextDocId, re.id, t, u, mirrorUrl year re.title t,
              DocumentStatus.initial, w.year⟩
            rfl rfl rfl hcol
          exact ⟨fun h => hok h, fun e he => Or.inr (herr e he)⟩

@[simp] theorem sampleFlag_store (st : St) : (sampleFlag st).store = st.store := rfl

@[simp] theorem sampleFlag_cache (st : St) : (sampleFlag st).cache = st.cache := rfl

@[simp] theorem sampleFlag_dbOps (st : St) : (sampleFlag st).dbOps = st.dbOps := rfl

@[simp] theorem sampleFlag_tmpOps (st : St) : (sampleFlag st).tmpOps = st.tmpOps := rfl

@[simp] theorem sampleFlag_time (st : St) : (sampleFlag st).time = st.time := rfl

@[simp] theorem sampleFlag_units (st : St) : (sampleFlag st).units = st.units := rfl

@[simp] theorem sampleFlag_trace (st : St) : (sampleFlag st).trace = st.trace := rfl

@[simp] theorem sampleFlag_samples (st : St) :
    (sampleFlag st).samples = st.samples ++ [st.time] := rfl

@[simp] theorem pushTrace_store (e : TraceEntry) (st : St) :
    (pushTrace e st).store = st.store := rfl

@[simp] theorem pushTrace_cache (e : TraceEntry) (st : St) :
    (pushTrace e st).cache = st.cache := rfl

@[simp] theorem pushTrace_dbOps (e : TraceEntry) (st : St) :
    (pushTrace e st).dbOps = st.dbOps := rfl

@[simp] theorem pushTrace_tmpOps (e : TraceEntry) (st : St) :
    (pushTrace e st).tmpOps = st.tmpOps := rfl

@[simp] theorem pushTrace_time (e : TraceEntry) (st : St) :
    (pushTrace e st).time = st.time := rfl

@[simp] theorem pushTrace_units (e : TraceEntry) (st : St) :
    (pushTrace e st).units = st.units := rfl

@[simp] theorem pushTrace_samples (e : TraceEntry) (st : St) :
    (pushTrace e st).samples = st.samples := rfl

@[simp] theorem pushTrace_trace (e : TraceEntry) (st : St) :
    (pushTrace e st).trace = st.trace ++ [e] := rfl

/-- The predicate `StopOk` is reflexive: an empty fragment appends nothing. -/
theorem stopOk_refl (flag : Nat → Bool) (l : List TraceEntry) : StopOk flag l l :=
  ⟨[], by simp, by simp⟩

/-- The predicate `StopOk` composes along consecutive fragments. -/
theorem stopOk_trans (flag : Nat → Bool) (A B C : List TraceEntry)
    (h1 : StopOk flag A B) (h2 : StopOk flag B C) : StopOk flag A C := by
  obtain ⟨d1, hB, h1all⟩ := h1
  obtain ⟨d2, hC, h2all⟩ := h2
  refine ⟨d1 ++ d2, by rw [hC, hB, List.append_assoc], ?_⟩
  intro x hx
  rcases List.mem_append.mp hx with h | h
  · obtain ⟨he, hd⟩ := h1all x h
    refine ⟨he, ?_⟩
    intro t2 u2 heq
    obtain ⟨hf, b, hb⟩ := hd t2 u2 heq
    exact ⟨hf, b, by rw [hC]; exact List.mem_append_left _ hb⟩
  · exact h2all x h

/-- The per-document pipeline respects the stop-flag trace discipline as long
as the flag was unset at its entry instant (which is when the document
boundary sampled it). -/
theorem processDoc_stopOk (w : World) (year : Int) (re : Event) (i : Nat)
    (d : ParserDocument) (st : St) (flag : Nat → Bool) (hf : flag st.time = false) :
    StopOk flag st.trace (processDoc w year re i d st).2.trace := by
  obtain ⟨⟨dt, hdt, hall⟩, _⟩ := processDoc_spec w year re i d st
  refine ⟨dt, hdt, ?_⟩
  intro x hx
  obtain ⟨hne, hds⟩ := hall x hx
  constructor
  · intro t2 ti heq
    exact absurd heq (hne t2 ti)
  · intro t2 u2 heq
    obtain ⟨ht2, hb⟩ := hds t2 u2 heq
    exact ⟨by rw [ht2]; exact hf, hb⟩

/-- The embedded `create_new_event` touches only the database and the db-call counter:
trace, samples, cache and clock are unchanged, and the event table only
grows. -/
theorem createNewEvent_frame (w : World) (series : Series) (year : Int)
    (ev : ParserEvent) (st : St) :
    (createNewEvent w series year ev st).2.trace = st.trace ∧
      (createNewEvent w series year ev st).2.samples = st.samples ∧
      (createNewEvent w series year ev st).2.cache = st.cache ∧
      (createNewEvent w series year ev st).2.time = st.time ∧
      (createNewEvent w series year ev st).2.units = st.units ∧
      (createNewEvent w series year ev st).2.tmpOps = st.tmpOps ∧
      (createNewEvent w series year ev st).2.store.documents = st.store.documents ∧
      (createNewEvent w series year ev st).2.store.nextDocId = st.store.nextDocId := by
  cases hti : ev.title with
  | none => simp [createNewEvent, hti]
  | some t =>
    cases hdb : w.dbFail st.dbOps with
    | true => simp [createNewEvent, hti, hdb]
    | false => simp [createNewEvent, hti, hdb]

/-- Frame lemma for the document loop: stop-flag trace discipline, sample
extension, cache growth (documents) and preservation (events), and a
untouched event table. -/
theorem docsLoop_frame (w : World) (flag : Nat → Bool) (year : Int) (re : Event) :
    ∀ (ds : List ParserDocument) (i : Nat) (st : St),
      StopOk flag st.trace (docsLoop w flag year re ds i st).2.trace ∧
      (∃ s2, (docsLoop w flag year re ds i st).2.samples = st.samples ++ s2) ∧
      (∀ c ∈ st.cache.documents, c ∈ (docsLoop w flag year re ds i st).2.cache.documents) ∧
      (docsLoop w flag year re ds i st).2.cache.events = st.cache.events ∧
      (docsLoop w flag year re ds i st).2.store.events = st.store.events ∧
      (docsLoop w flag year re ds i st).2.store.nextEventId = st.store.nextEventId := by
  intro ds
  induction ds with
  | nil =>
    intro i st
    exact ⟨stopOk_refl _ _, ⟨[], by simp [docsLoop]⟩, fun c hc => hc, rfl, rfl, rfl⟩
  | cons dc rest ih =>
    intro i st
    cases hf : flag st.time with
    | true =>
      simp only [docsLoop, sampleFlag_time, hf, if_true]
      refine ⟨⟨[TraceEntry.stoppedAtDoc st.time], by simp, ?_⟩,
        ⟨[st.time], by simp⟩, fun c hc => by simpa using hc, by simp, by simp, by simp⟩
      intro x hx
      simp at hx
      subst hx
      exact ⟨by simp, by simp⟩
    | false =>
      cases hpd : processDoc w year re i dc (sampleFlag st) with
      | mk r st2 =>
        obtain ⟨_, hsamp, _, _, _, hev, hne, hcev, ⟨dd, hcdd⟩, _⟩ :=
          processDoc_spec w year re i dc (sampleFlag st)
        rw [hpd] at hsamp hev hne hcev hcdd
        simp only [sampleFlag_samples, sampleFlag_store, sampleFlag_cache] at hsamp hev hne hcev hcdd
        have hstop2 : StopOk flag st.trace st2.trace := by
          have := processDoc_stopOk w year re i dc (sampleFlag st) flag
            (by simpa using hf)
          rw [hpd] at this
          simpa using this
        cases r with
        | ok a =>
          simp only [docsLoop, sampleFlag_time, hf, Bool.false_eq_true, if_false, hpd]
          obtain ⟨ihstop, ⟨s2, ihsamp⟩, ihcdocs, ihcev, ihev, ihne⟩ :=
            ih (i + 1) { st2 with time := st2.time + 1 + w.dur st2.units, units := st2.units + 1 }
          refine ⟨stopOk_trans flag _ _ _ hstop2 ihstop,
            ⟨[st.time] ++ s2, by rw [ihsamp]; simp [hsamp]⟩, ?_, ?_, ?_, ?_⟩
          · intro c hc
            apply ihcdocs
            simp only [hcdd]
            exact List.mem_append_left _ hc
          · rw [ihcev]
            exact hcev
          · rw [ihev]
            exact hev
          · rw [ihne]
            exact hne
        | err e =>
          simp only [docsLoop, sampleFlag_time, hf, Bool.false_eq_true, if_false, hpd]
          refine ⟨hstop2, ⟨[st.time], by rw [hsamp]⟩, ?_, hcev, hev, hne⟩
          intro c hc
          rw [hcdd]
          exact List.mem_append_left _ hc
        | panicked =>
          simp only [docsLoop, sampleFlag_time, hf, Bool.false_eq_true, if_false, hpd]
          refine ⟨hstop2, ⟨[st.time], by rw [hsamp]⟩, ?_, hcev, hev, hne⟩
          intro c hc
          rw [hcdd]
          exact List.mem_append_left _ hc

/-- Frame lemma for one event body (document loop plus scratch clear). -/
theorem eventBody_frame (w : World) (flag : Nat → Bool) (year : Int) (re : Event)
    (docs : List ParserDocument) (st : St) :
    StopOk flag st.trace (eventBody w flag year re docs st).2.trace ∧
      (∃ s2, (eventBody w flag year re docs st).2.samples = st.samples ++ s2) ∧
      (∀ c ∈ st.cache.documents, c ∈ (eventBody w flag year re docs st).2.cache.documents) ∧
      (eventBody w flag year re docs st).2.cache.events = st.cache.events ∧
      (eventBody w flag year re docs st).2.store.events = st.store.events ∧
      (eventBody w flag year re docs st).2.store.nextEventId = st.store.nextEventId := by
  obtain ⟨hstop, ⟨s2, hsamp⟩, hcd, hcev, hev, hne⟩ := docsLoop_frame w flag year re docs 0 st
  cases hdl : docsLoop w flag year re docs 0 st with
  | mk r st1 =>
    rw [hdl] at hstop hsamp hcd hcev hev hne
    simp only at hstop hsamp hcd hcev hev hne
    cases r with
    | ok a =>
      cases hct : w.clearTmpFail st1.tmpOps with
      | true =>
        simp only [eventBody, hdl, hct, if_true]
        exact ⟨hstop, ⟨s2, hsamp⟩, hcd, hcev, hev, hne⟩
      | false =>
        simp only [eventBody, hdl, hct, Bool.false_eq_true, if_false]
        exact ⟨hstop, ⟨s2, hsamp⟩, hcd, hcev, hev, hne⟩
    | err e =>
      simp only [eventBody, hdl]
      exact ⟨hstop, ⟨s2, hsamp⟩, hcd, hcev, hev, hne⟩
    | panicked =>
      simp only [eventBody, hdl]
      exact ⟨hstop, ⟨s2, hsamp⟩, hcd, hcev, hev, hne⟩

/-- Frame lemma for one event iteration (cache lookup or event insert, then
the event body). -/
theorem processEvent_frame (w : World) (flag : Nat → Bool) (year : Int)
    (series : Series) (ev : ParserEvent) (st : St) :
    StopOk flag st.trace (processEvent w flag year series ev st).2.trace ∧
      (∃ s2, (processEvent w flag year series ev st).2.samples = st.samples ++ s2) ∧
      (∀ c ∈ st.cache.documents, c ∈ (processEvent w flag year series ev st).2.cache.documents) ∧
      (processEvent w flag year series ev st).2.cache.events = st.cache.events := by
  cases hfc : findCachedEvent st.cache year series ev with
  | some e =>
    simp only [processEvent, hfc]
    obtain ⟨hstop, hs, hcd, hcev, _, _⟩ := eventBody_frame w flag year e ev.documents st
    exact ⟨hstop, hs, hcd, hcev⟩
  | none =>
    cases hcn : createNewEvent w series year ev st with
    | mk r st1 =>
      obtain ⟨htr, hsm, hca, _⟩ := createNewEvent_frame w series year ev st
      rw [hcn] at htr hsm hca
      simp only at htr hsm hca
      cases r with
      | ok e =>
        simp only [processEvent, hfc, hcn]
        obtain ⟨hstop, ⟨s2, hsamp⟩, hcd, hcev, _, _⟩ := eventBody_frame w flag year e ev.documents st1
        refine ⟨by rw [htr] at hstop; exact hstop, ⟨s2, by rw [hsamp, hsm]⟩, ?_, by rw [hcev, hca]⟩
        intro c hc
        apply hcd
        rw [hca]
        exact hc
      | err e2 =>
        simp only [processEvent, hfc, hcn]
        exact ⟨by rw [htr]; exact stopOk_refl _ _, ⟨[], by rw [hsm]; simp⟩,
          fun c hc => by rw [hca]; exact hc, by rw [hca]⟩
      | panicked =>
        simp only [processEvent, hfc, hcn]
        exact ⟨by rw [htr]; exact stopOk_refl _ _, ⟨[], by rw [hsm]; simp⟩,
          fun c hc => by rw [hca]; exact hc, by rw [hca]⟩

/-- Frame lemma for the event loop. -/
theorem eventsLoop_frame (w : World) (flag : Nat → Bool) (year : Int) (series : Series) :
    ∀ (evs : List ParserEvent) (st : St),
      StopOk flag st.trace (eventsLoop w flag year series evs st).2.trace ∧
      (∃ s2, (eventsLoop w flag year series evs st).2.samples = st.samples ++ s2) ∧
      (∀ c ∈ st.cache.documents, c ∈ (eventsLoop w flag year series evs st).2.cache.documents) ∧
      (eventsLoop w flag year series evs st).2.cache.events = st.cache.events := by
  intro evs
  induction evs with
  | nil =>
    intro st
    exact ⟨stopOk_refl _ _, ⟨[], by simp [eventsLoop]⟩, fun c hc => hc, rfl⟩
  | cons ev rest ih =>
    intro st
    cases hf : flag st.time with
    | true =>
      simp only [eventsLoop, sampleFlag_time, hf, if_true]
      refine ⟨⟨[TraceEntry.stoppedAtEvent st.time], by simp, ?_⟩,
        ⟨[st.time], by simp⟩, fun c hc => by simpa using hc, by simp⟩
      intro x hx
      simp at hx
      subst hx
      exact ⟨by simp, by simp⟩
    | false =>
      cases hpe : processEvent w flag year series ev
          (pushTrace (TraceEntry.eventStarted st.time ev.title) (sampleFlag st)) with
      | mk r st3 =>
        obtain ⟨hstop, ⟨s2, hsamp⟩, hcd, hcev⟩ := processEvent_frame w flag year series ev
          (pushTrace (TraceEntry.eventStarted st.time ev.title) (sampleFlag st))
        rw [hpe] at hstop hsamp hcd hcev
        simp only [pushTrace_trace, pushTrace_samples, pushTrace_cache, sampleFlag_trace,
          sampleFlag_samples, sampleFlag_cache, sampleFlag_time] at hstop hsamp hcd hcev
        have hstop0 : StopOk flag st.trace st3.trace := by
          refine stopOk_trans flag _ (st.trace ++ [TraceEntry.eventStarted st.time ev.title]) _
            ⟨[TraceEntry.eventStarted st.time ev.title], rfl, ?_⟩ hstop
          intro x hx
          simp at hx
          subst hx
          constructor
          · intro t2 ti heq
            cases heq
            exact hf
          · intro t2 u2 heq
            cases heq
        cases r with
        | ok a =>
          simp only [eventsLoop, sampleFlag_time, hf, Bool.false_eq_true, if_false, hpe]
          obtain ⟨ihstop, ⟨s3, ihsamp⟩, ihcd, ihcev⟩ := ih { st3 with time := st3.time + 1 }
          refine ⟨stopOk_trans flag _ _ _ hstop0 ihstop,
            ⟨[st.time] ++ s2 ++ s3, by rw [ihsamp]; simp [hsamp]⟩, ?_, ?_⟩
          · intro c hc
            apply ihcd
            exact hcd c hc
          · rw [ihcev]
            exact hcev
        | err e =>
          simp only [eventsLoop, sampleFlag_time, hf, Bool.false_eq_true, if_false, hpe]
          exact ⟨hstop0, ⟨[st.time] ++ s2, by rw [hsamp]; simp⟩, hcd, hcev⟩
        | panicked =>
          simp only [eventsLoop, sampleFlag_time, hf, Bool.false_eq_true, if_false, hpe]
          exact ⟨hstop0, ⟨[st.time] ++ s2, by rw [hsamp]; simp⟩, hcd, hcev⟩

/-- Frame lemma for one series (feed fetch plus event loop). -/
theorem runnerInternal_frame (w : World) (flag : Nat → Bool) (year : Int)
    (series : Series) (st : St) :
    StopOk flag st.trace (runnerInternal w flag year series st).2.trace ∧
      (∃ s2, (runnerInternal w flag year series st).2.samples = st.samples ++ s2) ∧
      (∀ c ∈ st.cache.documents, c ∈ (runnerInternal w flag year series st).2.cache.documents) ∧
      (runnerInternal w flag year series st).2.cache.events = st.cache.events := by
  cases hfd : w.feed series with
  | none =>
    simp only [runnerInternal, hfd]
    exact ⟨stopOk_refl _ _, ⟨[], by simp⟩, fun c hc => hc, by trivial⟩
  | some season =>
    simp only [runnerInternal, hfd]
    exact eventsLoop_frame w flag year series season.events st

/-- Frame lemma for the series loop. -/
theorem seriesLoop_frame (w : World) (flag : Nat → Bool) (year : Int) :
    ∀ (ss : List Series) (st : St),
      StopOk flag st.trace (seriesLoop w flag year ss st).2.trace ∧
      (∃ s2, (seriesLoop w flag year ss st).2.samples = st.samples ++ s2) ∧
      (∀ c ∈ st.cache.documents, c ∈ (seriesLoop w flag year ss st).2.cache.documents) ∧
      (seriesLoop w flag year ss st).2.cache.events = st.cache.events := by
  intro ss
  induction ss with
  | nil =>
    intro st
    exact ⟨stopOk_refl _ _, ⟨[], by simp [seriesLoop]⟩, fun c hc => hc, rfl⟩
  | cons s rest ih =>
    intro st
    cases hri : runnerInternal w flag year s st with
    | mk r st1 =>
      obtain ⟨hstop, ⟨s2, hsamp⟩, hcd, hcev⟩ := runnerInternal_frame w flag year s st
      rw [hri] at hstop hsamp hcd hcev
      simp only at hstop hsamp hcd hcev
      cases r with
      | ok a =>
        simp only [seriesLoop, hri]
        obtain ⟨ihstop, ⟨s3, ihsamp⟩, ihcd, ihcev⟩ := ih st1
        exact ⟨stopOk_trans flag _ _ _ hstop ihstop,
          ⟨s2 ++ s3, by rw [ihsamp, hsamp, List.append_assoc]⟩,
          fun c hc => ihcd c (hcd c hc), by rw [ihcev, hcev]⟩
      | err e =>
        simp only [seriesLoop, hri]
        exact ⟨hstop, ⟨s2, hsamp⟩, hcd, hcev⟩
      | panicked =>
        simp only [seriesLoop, hri]
        exact ⟨hstop, ⟨s2, hsamp⟩, hcd, hcev⟩

/-- Frame lemma for `populate_cache`: only query trace entries are appended
(no unit is started there), the samples and the database tables are
untouched. -/
theorem populateCache_frame (w : World) (flag : Nat → Bool) (year : Int) (st : St) :
    StopOk flag st.trace (populateCache w year st).2.trace ∧
      (populateCache w year st).2.samples = st.samples ∧
      (populateCache w year st).2.store = st.store := by
  have hvac : ∀ (dt res : List TraceEntry),
      (∀ x ∈ dt, x = TraceEntry.eventsQuery ∨ x = TraceEntry.docsQuery) →
      ∀ x ∈ dt,
        (∀ t2 ti, x = TraceEntry.eventStarted t2 ti → flag t2 = false) ∧
        (∀ t2 u2, x = TraceEntry.docStarted t2 u2 → flag t2 = false ∧
          ∃ b, TraceEntry.docCompleted u2 b ∈ res) := by
    intro dt res hdt x hx
    rcases hdt x hx with h | h <;> subst h <;> exact ⟨by simp, by simp⟩
  simp only [populateCache]
  split
  · exact ⟨⟨[TraceEntry.eventsQuery], by simp, hvac _ _ (by simp)⟩, by simp, by simp⟩
  · split
    · exact ⟨⟨[TraceEntry.eventsQuery], by simp, hvac _ _ (by simp)⟩, by simp, by simp⟩
    · split
      · exact ⟨⟨[TraceEntry.eventsQuery, TraceEntry.docsQuery], by simp,
          hvac _ _ (by simp)⟩, by simp, by simp⟩
      · exact ⟨⟨[TraceEntry.eventsQuery, TraceEntry.docsQuery], by simp,
          hvac _ _ (by simp)⟩, by simp, by simp⟩

/-- Frame lemma for a whole cycle: `runner` obeys the stop-flag trace
discipline and only extends the samples. -/
theorem runner_frame (w : World) (flag : Nat → Bool) (st : St) :
    StopOk flag st.trace (runner w flag st).2.trace ∧
      (∃ s2, (runner w flag st).2.samples = st.samples ++ s2) := by
  cases hpc : populateCache w w.year { st with cache := LocalCache.empty } with
  | mk r st2 =>
    obtain ⟨hstop, hsamp, _⟩ :=
      populateCache_frame w flag w.year { st with cache := LocalCache.empty }
    rw [hpc] at hstop hsamp
    simp only at hstop hsamp
    cases r with
    | ok a =>
      simp only [runner, hpc]
      obtain ⟨ihstop, ⟨s2, ihsamp⟩, _, _⟩ := seriesLoop_frame w flag w.year seriesOrder st2
      exact ⟨stopOk_trans flag _ _ _ hstop ihstop, ⟨s2, by rw [ihsamp, hsamp]⟩⟩
    | err e =>
      simp only [runner, hpc]
      exact ⟨hstop, ⟨[], by rw [hsamp]; simp⟩⟩
    | panicked =>
      simp only [runner, hpc]
      exact ⟨hstop, ⟨[], by rw [hsamp]; simp⟩⟩

/-- The document loop's outcome depends on the stop flag only through the
values the flag had at the sampled instants. -/
theorem docsLoop_agree (w : World) (f g : Nat → Bool) (year : Int) (re : Event) :
    ∀ (ds : List ParserDocument) (i : Nat) (st : St),
      (∀ t ∈ (docsLoop w f year re ds i st).2.samples, f t = g t) →
      docsLoop w g year re ds i st = docsLoop w f year re ds i st := by
  intro ds
  induction ds with
  | nil =>
    intro i st hag
    rfl
  | cons dc rest ih =>
    intro i st hag
    cases hf : f st.time with
    | true =>
      have hmem : st.time ∈ (docsLoop w f year re (dc :: rest) i st).2.samples := by
        simp only [docsLoop, sampleFlag_time, hf, if_true]
        simp
      have hg : g st.time = true := by
        rw [← hag st.time hmem]
        exact hf
      simp only [docsLoop, sampleFlag_time, hf, hg, if_true]
    | false =>
      cases hpd : processDoc w year re i dc (sampleFlag st) with
      | mk r st2 =>
        obtain ⟨_, hsamp2, _⟩ := processDoc_spec w year re i dc (sampleFlag st)
        rw [hpd] at hsamp2
        simp only [sampleFlag_samples] at hsamp2
        have hsub : ∀ t2, t2 ∈ st2.samples →
            t2 ∈ (docsLoop w f year re (dc :: rest) i st).2.samples := by
          intro t2 ht2
          simp only [docsLoop, sampleFlag_time, hf, Bool.false_eq_true, if_false, hpd]
          cases r with
          | ok a =>
            obtain ⟨_, ⟨s3, hs3⟩, _⟩ := docsLoop_frame w f year re rest (i + 1)
              { st2 with time := st2.time + 1 + w.dur st2.units, units := st2.units + 1 }
            rw [hs3]
            exact List.mem_append_left _ ht2
          | err e => exact ht2
          | panicked => exact ht2
        have hmem : st.time ∈ (docsLoop w f year re (dc :: rest) i st).2.samples := by
          apply hsub
          rw [hsamp2]
          simp
        have hg : g st.time = false := by
          rw [← hag st.time hmem]
          exact hf
        cases r with
        | ok a =>
          simp only [docsLoop, sampleFlag_time, hf, hg, Bool.false_eq_true, if_false, hpd]
          apply ih
          intro t ht
          apply hag
          simp only [docsLoop, sampleFlag_time, hf, Bool.false_eq_true, if_false, hpd]
          exact ht
        | err e =>
          simp only [docsLoop, sampleFlag_time, hf, hg, Bool.false_eq_true, if_false, hpd]
        | panicked =>
          simp only [docsLoop, sampleFlag_time, hf, hg, Bool.false_eq_true, if_false, hpd]

/-- The event body's outcome depends on the stop flag only through the
sampled instants. -/
theorem eventBody_agree (w : World) (f g : Nat → Bool) (year : Int) (re : Event)
    (docs : List ParserDocument) (st : St)
    (hag : ∀ t ∈ (eventBody w f year re docs st).2.samples, f t = g t) :
    eventBody w g year re docs st = eventBody w f year re docs st := by
  have hd : docsLoop w g year re docs 0 st = docsLoop w f year re docs 0 st := by
    apply docsLoop_agree
    intro t ht
    apply hag
    cases hdl : docsLoop w f year re docs 0 st with
    | mk r st1 =>
      rw [hdl] at ht
      simp only at ht
      cases r with
      | ok a =>
        simp only [eventBody, hdl]
        cases hct : w.clearTmpFail st1.tmpOps <;> simp [hct, ht]
      | err e =>
        simp only [eventBody, hdl]
        exact ht
      | panicked =>
        simp only [eventBody, hdl]
        exact ht
  simp only [eventBody, hd]

/-- One event iteration's outcome depends on the stop flag only through the
sampled instants. -/
theorem processEvent_agree (w : World) (f g : Nat → Bool) (year : Int)
    (series : Series) (ev : ParserEvent) (st : St)
    (hag : ∀ t ∈ (processEvent w f year series ev st).2.samples, f t = g t) :
    processEvent w g year series ev st = processEvent w f year series ev st := by
  cases hfc : findCachedEvent st.cache year series ev with
  | some e =>
    simp only [processEvent, hfc]
    apply eventBody_agree
    intro t ht
    apply hag
    simp only [processEvent, hfc]
    exact ht
  | none =>
    cases hcn : createNewEvent w series year ev st with
    | mk r st1 =>
      cases r with
      | ok e =>
        simp only [processEvent, hfc, hcn]
        apply eventBody_agree
        intro t ht
        apply hag
        simp only [processEvent, hfc, hcn]
        exact ht
      | err e2 =>
        simp only [processEvent, hfc, hcn]
      | panicked =>
        simp only [processEvent, hfc, hcn]

/-- The event loop's outcome depends on the stop flag only through the
sampled instants. -/
theorem eventsLoop_agree (w : World) (f g : Nat → Bool) (year : Int) (series : Series) :
    ∀ (evs : List ParserEvent) (st : St),
      (∀ t ∈ (eventsLoop w f year series evs st).2.samples, f t = g t) →
      eventsLoop w g year series evs st = eventsLoop w f year series evs st := by
  intro evs
  induction evs with
  | nil =>
    intro st hag
    rfl
  | cons ev rest ih =>
    intro st hag
    cases hf : f st.time with
    | true =>
      have hmem : st.time ∈ (eventsLoop w f year series (ev :: rest) st).2.samples := by
        simp only [eventsLoop, sampleFlag_time, hf, if_true]
        simp
      have hg : g st.time = true := by
        rw [← hag st.time hmem]
        exact hf
      simp only [eventsLoop, sampleFlag_time, hf, hg, if_true]
    | false =>
      cases hpe : processEvent w f year series ev
          (pushTrace (TraceEntry.eventStarted st.time ev.title) (sampleFlag st)) with
      | mk r st3 =>
        obtain ⟨_, ⟨s2, hsamp⟩, _, _⟩ := processEvent_frame w f year series ev
          (pushTrace (TraceEntry.eventStarted st.time ev.title) (sampleFlag st))
        rw [hpe] at hsamp
        simp only [pushTrace_samples, sampleFlag_samples] at hsamp
        have hsub : ∀ t2, t2 ∈ st3.samples →
            t2 ∈ (eventsLoop w f year series (ev :: rest) st).2.samples := by
          intro t2 ht2
          simp only [eventsLoop, sampleFlag_time, hf, Bool.false_eq_true, if_false, hpe]
          cases r with
          | ok a =>
            obtain ⟨_, ⟨s3, hs3⟩, _, _⟩ := eventsLoop_frame w f year series rest
              { st3 with time := st3.time + 1 }
            rw [hs3]
            exact List.mem_append_left _ ht2
          | err e => exact ht2
          | panicked => exact ht2
        have hmem : st.time ∈ (eventsLoop w f year series (ev :: rest) st).2.samples := by
          apply hsub
          rw [hsamp]
          simp
        have hg : g st.time = false := by
          rw [← hag st.time hmem]
          exact hf
        have hpeAg : processEvent w g year series ev
            (pushTrace (TraceEntry.eventStarted st.time ev.title) (sampleFlag st)) = (r, st3) := by
          rw [processEvent_agree w f g year series ev _
            (fun t ht => hag t (hsub t (by rw [hpe] at ht; exact ht)))]
          exact hpe
        cases r with
        | ok a =>
          simp only [eventsLoop, sampleFlag_time, hf, hg, Bool.false_eq_true, if_false, hpe, hpeAg]
          apply ih
          intro t ht
          apply hag
          simp only [eventsLoop, sampleFlag_time, hf, Bool.false_eq_true, if_false, hpe]
          exact ht
        | err e =>
          simp only [eventsLoop, sampleFlag_time, hf, hg, Bool.false_eq_true, if_false, hpe, hpeAg]
        | panicked =>
          simp only [eventsLoop, sampleFlag_time, hf, hg, Bool.false_eq_true, if_false, hpe, hpeAg]

/-- One series' outcome depends on the stop flag only through the sampled
instants. -/
theorem runnerInternal_agree (w : World) (f g : Nat → Bool) (year : Int)
    (series : Series) (st : St)
    (hag : ∀ t ∈ (runnerInternal w f year series st).2.samples, f t = g t) :
    runnerInternal w g year series st = runnerInternal w f year series st := by
  cases hfd : w.feed series with
  | none => simp only [runnerInternal, hfd]
  | some season =>
    simp only [runnerInternal, hfd]
    apply eventsLoop_agree
    intro t ht
    apply hag
    simp only [runnerInternal, hfd]
    exact ht

/-- The series loop's outcome depends on the stop flag only through the
sampled instants. -/
theorem seriesLoop_agree (w : World) (f g : Nat → Bool) (year : Int) :
    ∀ (ss : List Series) (st : St),
      (∀ t ∈ (seriesLoop w f year ss st).2.samples, f t = g t) →
      seriesLoop w g year ss st = seriesLoop w f year ss st := by
  intro ss
  induction ss with
  | nil =>
    intro st hag
    rfl
  | cons s rest ih =>
    intro st hag
    cases hri : runnerInternal w f year s st with
    | mk r st1 =>
      have hsub : ∀ t2, t2 ∈ st1.samples →
          t2 ∈ (seriesLoop w f year (s :: rest) st).2.samples := by
        intro t2 ht2
        simp only [seriesLoop, hri]
        cases r with
        | ok a =>
          obtain ⟨_, ⟨s3, hs3⟩, _, _⟩ := seriesLoop_frame w f year rest st1
          rw [hs3]
          exact List.mem_append_left _ ht2
        | err e => exact ht2
        | panicked => exact ht2
      have hriAg : runnerInternal w g year s st = (r, st1) := by
        rw [runnerInternal_agree w f g year s st
          (fun t ht => hag t (hsub t (by rw [hri] at ht; exact ht)))]
        exact hri
      cases r with
      | ok a =>
        simp only [seriesLoop, hri, hriAg]
        apply ih
        intro t ht
        apply hag
        simp only [seriesLoop, hri]
        exact ht
      | err e =>
        simp only [seriesLoop, hri, hriAg]
      | panicked =>
        simp only [seriesLoop, hri, hriAg]

/-- A whole cycle's outcome depends on the stop flag only through the sampled
instants (`populate_cache` never consults the flag). -/
theorem runner_agree (w : World) (f g : Nat → Bool) (st : St)
    (hag : ∀ t ∈ (runner w f st).2.samples, f t = g t) :
    runner w g st = runner w f st := by
  cases hpc : populateCache w w.year { st with cache := LocalCache.empty } with
  | mk r st2 =>
    cases r with
    | ok a =>
      simp only [runner, hpc]
      apply seriesLoop_agree
      intro t ht
      apply hag
      simp only [runner, hpc]
      exact ht
    | err e => simp only [runner, hpc]
    | panicked => simp only [runner, hpc]

/-- Claim C9: within every cycle the stop flag is sampled before starting
each event and each document, and (1, 2) any `docStarted`/`eventStarted`
entry the cycle adds records a boundary instant at which the flag was unset
— a flag set at a boundary prevents the unit from starting; (3) every
document started by the cycle reaches a `docCompleted` entry (success or
failure); (4) the cycle's entire outcome is unchanged under any modification
of the flag away from the sampled boundary instants, so a flag set mid-unit
never affects the running unit. -/
theorem C9_thm (w : World) (f g : Nat → Bool) (st : St) :
    (∀ t u, TraceEntry.docStarted t u ∈ (runner w f st).2.trace →
      TraceEntry.docStarted t u ∈ st.trace ∨ f t = false) ∧
    (∀ t ti, TraceEntry.eventStarted t ti ∈ (runner w f st).2.trace →
      TraceEntry.eventStarted t ti ∈ st.trace ∨ f t = false) ∧
    (∀ t u, TraceEntry.docStarted t u ∈ (runner w f st).2.trace →
      TraceEntry.docStarted t u ∈ st.trace ∨
        ∃ b, TraceEntry.docCompleted u b ∈ (runner w f st).2.trace) ∧
    ((∀ t ∈ (runner w f st).2.samples, f t = g t) →
      runner w g st = runner w f st) := by
  obtain ⟨⟨dt, hdt, hall⟩, _⟩ := runner_frame w f st
  refine ⟨?_, ?_, ?_, runner_agree w f g st⟩
  · intro t u hmem
    rw [hdt] at hmem
    rcases List.mem_append.mp hmem with h | h
    · exact Or.inl h
    · exact Or.inr ((hall _ h).2 t u rfl).1
  · intro t ti hmem
    rw [hdt] at hmem
    rcases List.mem_append.mp hmem with h | h
    · exact Or.inl h
    · exact Or.inr ((hall _ h).1 t ti rfl)
  · intro t u hmem
    rw [hdt] at hmem
    rcases List.mem_append.mp hmem with h | h
    · exact Or.inl h
    · exact Or.inr ((hall _ h).2 t u rfl).2

/-- Claim C9, witness: on the concrete `wC9` run, a flag set at instant 3 —
strictly inside the only document unit's execution interval and thus away
from every sampled boundary — leaves the whole cycle unchanged, and the
started document has a completion entry. -/
theorem C9_witness :
    runner wC9 gC9 st0 = runner wC9 flagOff st0 ∧
      ∃ b, TraceEntry.docCompleted "u1" b ∈ (runner wC9 flagOff st0).2.trace := by
  constructor
  · exact (C9_thm wC9 flagOff gC9 st0).2.2.2 (by decide)
  · exact ((C9_thm wC9 flagOff gC9 st0).2.2.1 0 "u1" (by decide)).resolve_left (by decide)

/-- Claim C10: (1) a document candidate whose source url is already in the
cache's document set is skipped outright — the pipeline's only effect is the
`docSkipped` trace entry, no download, render, upload or store write; (2)
any document row present after the pipeline either predates it or has its
source url in the cache's document set (the row is pushed to the cache
immediately after the insert); (3) the cache's document set only grows
across the series loop, so an entry persists for all later documents,
events and series of the cycle. -/
theorem C10_thm (w : World) (year : Int) (re : Event) (i : Nat) (st : St) (u : String)
    (d : ParserDocument) (f : Nat → Bool) (ss : List Series) :
    (d.url = some u → (∃ t2, d.title = some t2) →
      st.cache.documents.any (fun c => c.href == u) = true →
      processDoc w year re i d st = (RunRes.ok (), pushTrace (TraceEntry.docSkipped u) st)) ∧
    ((∀ r ∈ st.store.documents, r.id ≠ st.store.nextDocId) →
      ∀ row ∈ (processDoc w year re i d st).2.store.documents,
        row ∈ st.store.documents ∨
          ∃ c ∈ (processDoc w year re i d st).2.cache.documents, c.href = row.href) ∧
    (∀ c ∈ st.cache.documents, c ∈ (seriesLoop w f year ss st).2.cache.documents) := by
  refine ⟨?_, ?_, ?_⟩
  · rintro hurl ⟨t2, htit⟩ hc
    obtain ⟨dtit, durl⟩ := d
    simp only at htit hurl
    subst htit
    subst hurl
    simp only [processDoc, hc, if_true]
  · exact (processDoc_spec w year re i d st).2.2.2.2.2.2.2.2.2
  · obtain ⟨_, _, hcd, _⟩ := seriesLoop_frame w f year ss st
    exact hcd

/-- Claim C10, witness: a concrete candidate under a different event whose
url `u` is already cached is skipped with no other effect. -/
theorem C10_witness :
    processDoc baseWorld 2025 reC10 0 dC10 stC10
      = (RunRes.ok (), pushTrace (TraceEntry.docSkipped "u") stC10) :=
  (C10_thm baseWorld 2025 reC10 0 stC10 "u" dC10 flagOff []).1 rfl ⟨"D", rfl⟩ (by decide)

/-- Claim C1, amended: a failure of the per-document content pipeline is
fatal to the whole cycle, not just the document — the error propagates out
of the document loop, the event loop, the series loop and `runner` itself
(the cycle's caller logs it and the next cycle is the only retry). -/
theorem C1_amended (w : World) (f : Nat → Bool) (y : Int) (re : Event) (s : Series)
    (d : ParserDocument) (ds : List ParserDocument) (ev : ParserEvent)
    (rest : List ParserEvent) (ss : List Series) (i : Nat) (st st2 : St) (e : Err) :
    (f st.time = false →
      processDoc w y re i d (sampleFlag st) = (RunRes.err e, st2) →
      docsLoop w f y re (d :: ds) i st = (RunRes.err e, st2)) ∧
    (f st.time = false →
      processEvent w f y s ev (pushTrace (TraceEntry.eventStarted st.time ev.title)
        (sampleFlag st)) = (RunRes.err e, st2) →
      eventsLoop w f y s (ev :: rest) st = (RunRes.err e, st2)) ∧
    (runnerInternal w f y s st = (RunRes.err e, st2) →
      seriesLoop w f y (s :: ss) st = (RunRes.err e, st2)) ∧
    (populateCache w w.year { st with cache := LocalCache.empty } = (RunRes.ok (), st2) →
      runner w f st = seriesLoop w f w.year seriesOrder st2) := by
  refine ⟨?_, ?_, ?_, ?_⟩
  · intro hf hpd
    simp only [docsLoop, sampleFlag_time, hf, Bool.false_eq_true, if_false, hpd]
  · intro hf hpe
    simp only [eventsLoop, sampleFlag_time, hf, Bool.false_eq_true, if_false, hpe]
  · intro hri
    simp only [seriesLoop, hri]
  · intro hpc
    simp only [runner, hpc]

/-- Claim C1, witness: the amended propagation applied at a concrete failing
download — the document loop returns the document's error unchanged. -/
theorem C1_amended_witness :
    docsLoop wC1w flagOff 2025 reC1w [dC1w] 0 st0
      = (RunRes.err Err.download, (processDoc wC1w 2025 reC1w 0 dC1w (sampleFlag st0)).2) :=
  (C1_amended wC1w flagOff 2025 reC1w Series.f1 dC1w [] ⟨none, none, []⟩ [] [] 0 st0
    ((processDoc wC1w 2025 reC1w 0 dC1w (sampleFlag st0)).2) Err.download).1 rfl rfl

/-- Claim C2, amended: on a read failure `populate_cache` propagates the
error and leaves `last_populated` and the store untouched, but the cache is
not in its pre-call state: both lists were cleared on entry, so the document
list is empty and the event list is either empty (events read failed) or the
freshly loaded year's events (documents read failed). -/
theorem C2_amended (w : World) (y : Int) (st : St) :
    ∀ e, (populateCache w y st).1 = RunRes.err e →
      (populateCache w y st).2.cache.lastPopulated = st.cache.lastPopulated ∧
      (populateCache w y st).2.cache.documents = [] ∧
      ((populateCache w y st).2.cache.events = [] ∨
        (populateCache w y st).2.cache.events
          = st.store.events.filter (fun ev2 => ev2.year == y)) ∧
      (populateCache w y st).2.store = st.store := by
  intro e
  simp only [populateCache]
  split
  · intro he
    exact ⟨by simp, by simp, Or.inl (by simp), by simp⟩
  · split
    · intro he
      simp at he
    · split
      · intro he
        exact ⟨by simp, by simp, Or.inr (by simp), by simp⟩
      · intro he
        simp at he

/-- Claim C2, witness: the amended theorem applied at the concrete failing
world and stale cache of the counterexample. -/
theorem C2_amended_witness :
    (populateCache wC2x 2025 stC2x).2.cache.lastPopulated = stC2x.cache.lastPopulated ∧
      (populateCache wC2x 2025 stC2x).2.cache.documents = [] ∧
      ((populateCache wC2x 2025 stC2x).2.cache.events = [] ∨
        (populateCache wC2x 2025 stC2x).2.cache.events
          = stC2x.store.events.filter (fun ev2 => ev2.year == 2025)) ∧
      (populateCache wC2x 2025 stC2x).2.store = stC2x.store :=
  C2_amended wC2x 2025 stC2x Err.db (by decide)

/-- Trace shape of `populate_cache`: the events query is always issued; the
documents query is issued exactly when the events read succeeded and more
than a day passed since `last_populated`. -/
theorem populateCache_trace (w : World) (y : Int) (st : St) :
    ((w.now - st.cache.lastPopulated).tdiv 86400 < 1 →
      (populateCache w y st).2.trace = st.trace ++ [TraceEntry.eventsQuery]) ∧
    (w.dbFail st.dbOps = false → ¬ (w.now - st.cache.lastPopulated).tdiv 86400 < 1 →
      (populateCache w y st).2.trace
        = st.trace ++ [TraceEntry.eventsQuery, TraceEntry.docsQuery]) := by
  constructor
  · intro hdelta
    simp only [populateCache]
    split
    · simp [pushTrace]
    · split
      · simp [pushTrace]
      · next h =>
        exfalso
        apply h
        simpa using hdelta
  · intro hdb1 hdelta
    simp only [populateCache]
    split
    · next h =>
      exfalso
      simp only [pushTrace_dbOps] at h
      rw [hdb1] at h
      simp at h
    · split
      · next h2 =>
        exfalso
        apply hdelta
        simpa using h2
      · split
        · simp [pushTrace]
        · simp [pushTrace]

/-- Claim C7, amended: `populate_cache` always re-reads the events table and
reads the documents table only when more than a day passed since the cache's
`last_populated`; but `runner` hands it a fresh `LocalCache::default()`
(epoch timestamp) every cycle, so whenever the wall clock is at least a day
past the epoch and the events read succeeds, every single cycle re-reads the
documents table — the once-per-day bound never carries across cycles. -/
theorem C7_amended (w : World) (y : Int) (st : St) (f : Nat → Bool) :
    ((w.now - st.cache.lastPopulated).tdiv 86400 < 1 →
      (populateCache w y st).2.trace = st.trace ++ [TraceEntry.eventsQuery]) ∧
    (w.dbFail st.dbOps = false → ¬ (w.now - st.cache.lastPopulated).tdiv 86400 < 1 →
      (populateCache w y st).2.trace
        = st.trace ++ [TraceEntry.eventsQuery, TraceEntry.docsQuery]) ∧
    (1 ≤ w.now.tdiv 86400 → w.dbFail st.dbOps = false →
      TraceEntry.docsQuery ∈ (runner w f st).2.trace) := by
  refine ⟨(populateCache_trace w y st).1, (populateCache_trace w y st).2, ?_⟩
  intro hday hdb1
  have hcond2 : ¬ (w.now
      - ({ st with cache := LocalCache.empty } : St).cache.lastPopulated).tdiv 86400 < 1 := by
    have hz : ({ st with cache := LocalCache.empty } : St).cache.lastPopulated = 0 := rfl
    rw [hz, Int.sub_zero]
    exact not_lt.mpr hday
  have htr := (populateCache_trace w w.year { st with cache := LocalCache.empty }).2 hdb1 hcond2
  cases hpc : populateCache w w.year { st with cache := LocalCache.empty } with
  | mk r st2 =>
    rw [hpc] at htr
    simp only at htr
    cases r with
    | ok a =>
      simp only [runner, hpc]
      obtain ⟨⟨dt, hdt, _⟩, _, _, _⟩ := seriesLoop_frame w f w.year seriesOrder st2
      rw [hdt, htr]
      simp
    | err e2 =>
      simp only [runner, hpc]
      rw [htr]
      simp
    | panicked =>
      simp only [runner, hpc]
      rw [htr]
      simp

/-- Claim C7, witness: the amended theorem applied at a concrete cycle whose
clock is far past the epoch — the documents table is read. -/
theorem C7_amended_witness : TraceEntry.docsQuery ∈ (runner wC7a flagOff st0).2.trace :=
  (C7_amended wC7a 2025 st0 flagOff).2.2 (by decide) rfl

/-- Claim C8, witness: the amended theorem applied at a concrete fully
successful two-page document — the row flips to ReadyToPost with both image
rows persisted. -/
theorem C8_amended_witness :
    ∃ n, wC8w.magick 0 "u" = some n ∧
      (processDoc wC8w 2025 reC8x 0 dC8x st0).2.store.documents
        = st0.store.documents ++ [⟨st0.store.nextDocId, reC8x.id, "D", "u",
            mirrorUrl 2025 reC8x.title "D", DocumentStatus.readyToPost, wC8w.year⟩] ∧
      (processDoc wC8w 2025 reC8x 0 dC8x st0).2.store.images
        = st0.store.images ++ (List.range n).map
            (fun p => ⟨st0.store.nextDocId, p, imgUrl 2025 reC8x.title st0.store.nextDocId p⟩) :=
  (C8_amended wC8w 2025 reC8x 0 dC8x st0 "D" "u" rfl rfl (by decide) (by decide)).1 rfl

/-- The boolean uniqueness check agrees with the propositional invariant. -/
theorem eventsUnique_iff : ∀ l : List Event, eventsUnique l = true ↔ EventsUniqueP l := by
  intro l
  induction l with
  | nil => simp [eventsUnique, EventsUniqueP]
  | cons e rest ih =>
    simp only [eventsUnique, Bool.and_eq_true, List.all_eq_true, Bool.not_eq_true']
    unfold EventsUniqueP
    rw [List.pairwise_cons]
    unfold EventsUniqueP at ih
    constructor
    · rintro ⟨h1, h2⟩
      refine ⟨?_, ih.mp h2⟩
      intro b hb hkey
      obtain ⟨ht, hy, hs⟩ := hkey
      have hb2 := h1 b hb
      simp [← ht, ← hy, ← hs] at hb2
    · rintro ⟨h1, h2⟩
      refine ⟨?_, ih.mpr h2⟩
      intro b hb
      have hb2 := h1 b hb
      by_contra hcon
      simp only [Bool.not_eq_false, Bool.and_eq_true, beq_iff_eq] at hcon
      exact hb2 ⟨hcon.1.1.symm, hcon.1.2.symm, hcon.2.symm⟩

/-- Effect of one event iteration on the event table: either nothing (cache
hit, panic or failed insert), or — on a cache miss with a present title —
exactly one new row carrying the candidate's title, the target year, the
series and status `NotAllowed`. -/
theorem processEvent_events (w : World) (flag : Nat → Bool) (year : Int)
    (series : Series) (ev : ParserEvent) (st : St) :
    (processEvent w flag year series ev st).2.store.events = st.store.events ∨
      (findCachedEvent st.cache year series ev = none ∧ ∃ t, ev.title = some t ∧
        (processEvent w flag year series ev st).2.store.events
          = st.store.events
            ++ [⟨st.store.nextEventId, t, year, series, EventStatus.notAllowed⟩]) := by
  cases hfc : findCachedEvent st.cache year series ev with
  | some e =>
    simp only [processEvent, hfc]
    obtain ⟨_, _, _, _, hev, _⟩ := eventBody_frame w flag year e ev.documents st
    exact Or.inl hev
  | none =>
    cases hti : ev.title with
    | none =>
      simp only [processEvent, hfc, createNewEvent, hti]
      exact Or.inl (by trivial)
    | some t =>
      cases hdb : w.dbFail st.dbOps with
      | true =>
        simp only [processEvent, hfc, createNewEvent, hti, hdb, if_true]
        exact Or.inl (by trivial)
      | false =>
        simp only [processEvent, hfc, createNewEvent, hti, hdb, Bool.false_eq_true, if_false]
        obtain ⟨_, _, _, _, hev, _⟩ := eventBody_frame w flag year
          ⟨st.store.nextEventId, t, year, series, EventStatus.notAllowed⟩ ev.documents
          { st with
            dbOps := st.dbOps + 1,
            store := { st.store with
              events := st.store.events
                ++ [⟨st.store.nextEventId, t, year, series, EventStatus.notAllowed⟩],
              nextEventId := st.store.nextEventId + 1 } }
        exact Or.inr ⟨by trivial, t, by trivial, hev⟩

/-- Uniqueness preservation through the event loop of one series: given that
every already-stored row of this year and series that matches an upcoming
candidate title is visible in the cache, no duplicate (title, year, series)
key is ever inserted; the cached events are untouched and every new row
carries this year and series. -/
theorem eventsLoop_unique (w : World) (flag : Nat → Bool) (y : Int) (s : Series) :
    ∀ (evs : List ParserEvent) (st : St),
      EventsUniqueP st.store.events →
      (∀ ev ∈ evs, ev.season = some y) →
      (evs.filterMap ParserEvent.title).Nodup →
      (∀ e ∈ st.store.events, e.year = y → e.series = s →
        e ∈ st.cache.events ∨ e.title ∉ evs.filterMap ParserEvent.title) →
      EventsUniqueP (eventsLoop w flag y s evs st).2.store.events ∧
      (eventsLoop w flag y s evs st).2.cache.events = st.cache.events ∧
      (∀ e ∈ (eventsLoop w flag y s evs st).2.store.events,
        e ∈ st.store.events ∨ (e.year = y ∧ e.series = s)) := by
  intro evs
  induction evs with
  | nil =>
    intro st hu _ _ _
    exact ⟨hu, rfl, fun e he => Or.inl he⟩
  | cons ev rest ih =>
    intro st hu hseason hnodup hvis
    have hsubT : rest.filterMap ParserEvent.title ⊆ (ev :: rest).filterMap ParserEvent.title :=
      (List.Sublist.filterMap _ (List.sublist_cons_self ev rest)).subset
    have hnodupT : (rest.filterMap ParserEvent.title).Nodup :=
      hnodup.sublist (List.Sublist.filterMap _ (List.sublist_cons_self ev rest))
    cases hf : flag st.time with
    | true =>
      simp only [eventsLoop, sampleFlag_time, hf, if_true]
      exact ⟨hu, rfl, fun e he => Or.inl he⟩
    | false =>
      cases hpe : processEvent w flag y s ev
          (pushTrace (TraceEntry.eventStarted st.time ev.title) (sampleFlag st)) with
      | mk r st3 =>
        have hevch := processEvent_events w flag y s ev
          (pushTrace (TraceEntry.eventStarted st.time ev.title) (sampleFlag st))
        obtain ⟨_, _, _, hcev⟩ := processEvent_frame w flag y s ev
          (pushTrace (TraceEntry.eventStarted st.time ev.title) (sampleFlag st))
        rw [hpe] at hevch hcev
        simp only [pushTrace_store, sampleFlag_store, pushTrace_cache, sampleFlag_cache]
          at hevch hcev
        have hst3 : EventsUniqueP st3.store.events ∧
            (∀ e ∈ st3.store.events, e ∈ st.store.events ∨ (e.year = y ∧ e.series = s)) ∧
            (∀ e ∈ st3.store.events, e.year = y → e.series = s →
              e ∈ st3.cache.events ∨ e.title ∉ rest.filterMap ParserEvent.title) := by
          rcases hevch with heq | ⟨hmiss, t, htit, heq⟩
          · rw [heq]
            refine ⟨hu, fun e he => Or.inl he, ?_⟩
            intro e he hy hs
            rcases hvis e he hy hs with h | h
            · exact Or.inl (by rw [hcev]; exact h)
            · exact Or.inr (fun hmem => h (hsubT hmem))
          · have hseason0 : ev.season = some y := hseason ev (by simp)
            have hnotin : ∀ e2 ∈ st.store.events,
                ¬ (e2.title = t ∧ e2.year = y ∧ e2.series = s) := by
              rintro e2 he2 ⟨ht2, hy2, hs2⟩
              rcases hvis e2 he2 hy2 hs2 with h | h
              · have hcand : candMatches y s ev e2 = true := by
                  simp [candMatches, htit, hseason0, ht2, hs2]
                have hnone := List.find?_eq_none.mp hmiss e2 h
                exact hnone hcand
              · apply h
                rw [ht2]
                exact List.mem_filterMap.mpr ⟨ev, List.mem_cons_self ev rest, htit⟩
            have htmem : t ∈ (ev :: rest).filterMap ParserEvent.title :=
              List.mem_filterMap.mpr ⟨ev, List.mem_cons_self ev rest, htit⟩
            have htnotrest : t ∉ rest.filterMap ParserEvent.title := by
              have h2 := hnodup
              rw [List.filterMap_cons] at h2
              rw [htit] at h2
              exact (List.nodup_cons.mp h2).1
            refine ⟨?_, ?_, ?_⟩
            · rw [heq]
              unfold EventsUniqueP
              rw [List.pairwise_append]
              refine ⟨hu, by simp, ?_⟩
              intro a ha b hb
              simp only [List.mem_singleton] at hb
              subst hb
              exact hnotin a ha
            · rw [heq]
              intro e he
              rcases List.mem_append.mp he with h | h
              · exact Or.inl h
              · simp only [List.mem_singleton] at h
                subst h
                exact Or.inr ⟨rfl, rfl⟩
            · rw [heq]
              intro e he hy hs
              rcases List.mem_append.mp he with h | h
              · rcases hvis e h hy hs with hc | ht3
                · exact Or.inl (by rw [hcev]; exact hc)
                · exact Or.inr (fun hmem => ht3 (hsubT hmem))
              · simp only [List.mem_singleton] at h
                subst h
                exact Or.inr htnotrest
        obtain ⟨hu3, hpres, hvis3⟩ := hst3
        cases r with
        | ok a =>
          simp only [eventsLoop, sampleFlag_time, hf, Bool.false_eq_true, if_false, hpe]
          obtain ⟨hru, hrc, hrp⟩ := ih { st3 with time := st3.time + 1 } hu3
            (fun e2 he2 => hseason e2 (List.mem_cons_of_mem ev he2)) hnodupT hvis3
          refine ⟨hru, by rw [hrc]; exact hcev, ?_⟩
          intro e he
          rcases hrp e he with h | h
          · exact hpres e h
          · exact Or.inr h
        | err e2 =>
          simp only [eventsLoop, sampleFlag_time, hf, Bool.false_eq_true, if_false, hpe]
          exact ⟨hu3, hcev, hpres⟩
        | panicked =>
          simp only [eventsLoop, sampleFlag_time, hf, Bool.false_eq_true, if_false, hpe]
          exact ⟨hu3, hcev, hpres⟩

/-- Uniqueness preservation through the series loop: with distinct series,
well-formed feeds (candidate seasons equal to the target year, no duplicate
titles within one feed) and all this-year rows of the remaining series
visible in the cache, the event-key uniqueness invariant is preserved. -/
theorem seriesLoop_unique (w : World) (flag : Nat → Bool) (y : Int)
    (hfeed : ∀ s2 season, w.feed s2 = some season →
      (∀ ev ∈ season.events, ev.season = some y) ∧
      (season.events.filterMap ParserEvent.title).Nodup) :
    ∀ (ss : List Series) (st : St),
      ss.Nodup →
      EventsUniqueP st.store.events →
      (∀ e ∈ st.store.events, e.year = y → e.series ∈ ss → e ∈ st.cache.events) →
      EventsUniqueP (seriesLoop w flag y ss st).2.store.events := by
  intro ss
  induction ss with
  | nil =>
    intro st _ hu _
    exact hu
  | cons s rest ih =>
    intro st hnodup hu hvis
    cases hfd : w.feed s with
    | none =>
      simp only [seriesLoop, runnerInternal, hfd]
      exact hu
    | some season =>
      obtain ⟨hse, hnd⟩ := hfeed s season hfd
      obtain ⟨hu2, hcev2, hpres2⟩ := eventsLoop_unique w flag y s season.events st hu hse hnd
        (fun e he hy hs => Or.inl (hvis e he hy (by rw [hs]; exact List.mem_cons_self s rest)))
      cases hev : eventsLoop w flag y s season.events st with
      | mk r st1 =>
        rw [hev] at hu2 hcev2 hpres2
        simp only at hu2 hcev2 hpres2
        cases r with
        | ok a =>
          simp only [seriesLoop, runnerInternal, hfd, hev]
          apply ih st1 (List.nodup_cons.mp hnodup).2 hu2
          intro e he hy hs
          rcases hpres2 e he with hold | ⟨hy2, hs2⟩
          · rw [hcev2]
            exact hvis e hold hy (List.mem_cons_of_mem s hs)
          · exfalso
            rw [hs2] at hs
            exact (List.nodup_cons.mp hnodup).1 hs
        | err e2 =>
          simp only [seriesLoop, runnerInternal, hfd, hev]
          exact hu2
        | panicked =>
          simp only [seriesLoop, runnerInternal, hfd, hev]
          exact hu2

/-- On success, `populate_cache` leaves the cache's event list holding
exactly the stored events of the target year. -/
theorem populateCache_ok_events (w : World) (y : Int) (st : St) :
    (populateCache w y st).1 = RunRes.ok () →
      (populateCache w y st).2.cache.events
        = st.store.events.filter (fun e => e.year == y) := by
  simp only [populateCache]
  split
  · intro h
    simp at h
  · split
    · intro h
      simp
    · split
      · intro h
        simp at h
      · intro h
        simp

/-- One cycle preserves the event-key uniqueness invariant, provided every
fed candidate carries the target year as its season and no feed repeats a
title. -/
theorem runner_unique (w : World) (flag : Nat → Bool) (st : St)
    (hfeed : ∀ s2 season, w.feed s2 = some season →
      (∀ ev ∈ season.events, ev.season = some w.year) ∧
      (season.events.filterMap ParserEvent.title).Nodup)
    (hu : EventsUniqueP st.store.events) :
    EventsUniqueP (runner w flag st).2.store.events := by
  cases hpc : populateCache w w.year { st with cache := LocalCache.empty } with
  | mk r st2 =>
    obtain ⟨_, _, hstore⟩ := populateCache_frame w flag w.year { st with cache := LocalCache.empty }
    have hcache := populateCache_ok_events w w.year { st with cache := LocalCache.empty }
    rw [hpc] at hstore hcache
    simp only at hstore hcache
    cases r with
    | ok a =>
      simp only [runner, hpc]
      apply seriesLoop_unique w flag w.year hfeed seriesOrder st2 (by decide)
        (by rw [hstore]; exact hu)
      intro e he hy _
      rw [hcache rfl]
      rw [hstore] at he
      exact List.mem_filter.mpr ⟨he, by simp [hy]⟩
    | err e2 =>
      simp only [runner, hpc]
      rw [hstore]
      exact hu
    | panicked =>
      simp only [runner, hpc]
      rw [hstore]
      exact hu

/-- Claim C5, amended: after two cycles over an unchanged feed, the store
holds at most one Event row per (title, year, series) — provided every event
candidate's `season` field equals the target year (the cache lookup compares
the candidate's season, never the stored row's year) and no feed lists the
same title twice (a created event is not added to the cache within the
cycle, so an intra-feed duplicate title would be inserted twice). -/
theorem C5_amended (w : World) (flag : Nat → Bool) (st : St)
    (hu0 : eventsUnique st.store.events = true)
    (hfeed : ∀ s season, w.feed s = some season →
      (∀ ev ∈ season.events, ev.season = some w.year) ∧
      (season.events.filterMap ParserEvent.title).Nodup) :
    eventsUnique ((runner w flag ((runner w flag st).2)).2.store.events) = true := by
  rw [eventsUnique_iff] at hu0 ⊢
  exact runner_unique w flag _ hfeed (runner_unique w flag st hfeed hu0)

/-- Claim C5, witness: the amended theorem applied at a concrete well-formed
two-event feed, repeated over two cycles from an empty store. -/
theorem C5_amended_witness :
    eventsUnique ((runner wC5w flagOff ((runner wC5w flagOff st0).2)).2.store.events)
      = true := by
  apply C5_amended wC5w flagOff st0 (by decide)
  intro s season h
  simp only [wC5w] at h
  injection h with h2
  subst h2
  exact ⟨by decide, by decide⟩

end Fia
